import Mathlib

/-!
# GoRxRename: rule-driven rewriting of file contents and file names

A shallow embedding of `gorxrename.go` and a verification of its specification.

* Texts (Go `string` and `[]byte` values) are lists of characters, and every character
  of a text stands for one byte: lengths, the 64 KiB limit of the line scanner and the
  comparisons of contents count and compare these elements.  This is a choice of the
  model; the program never decodes its texts, so no theorem depends on an encoding.
* Go's `regexp` package is a parameter (`RegexpLib`): every general theorem holds for
  whatever the library computes.  `literalLib` is the fragment of the library on
  patterns without metacharacters; it is used for the concrete executions.
* A Go map is the list of its entries in insertion order, and every `range` over it
  iterates the entries in an order picked by the runtime (`RangeOrder`, `Runtime`).
* The operating system is a small filesystem of regular files and directories keyed
  by cleaned paths (`FS`), with the owner's read and write permission bits.
  Symbolic links and concurrent mutation are outside the model.
* `filepath.Walk` is modelled from the Go standard library (`walk`, `walkNames`, `Walk`).
  Its recursion is bounded by a fuel; a walk that does not run out of fuel is the same
  with any larger fuel (`Walk_fuel`), and a fuel above the depth of the deepest path of
  the tree is never used up (`renameFilesAndContent_enough`).
-/

namespace GoRxRename

/-! ## Texts -/

/-- A Go string or byte slice, one character for each byte. -/
abbrev Text := List Char

/-- The errors the program can surface. -/
inductive Error
  | badPattern (pattern : Text)
  | tooLong
  | notExist (path : Text)
  | isDirectory (path : Text)
  | notDirectory (path : Text)
  | permission (path : Text)
  | nilInfo
  | outOfFuel
  deriving DecidableEq, Repr

/-- Fields of `s` around the non-overlapping occurrences of `sep`, leftmost first, as
`strings.Split(s, sep)` for a non-empty `sep`.  `skip` counts the characters of an
occurrence still to be passed over and `cur` is the field being read, reversed. -/
def splitAux (sep : Text) : Nat → Text → Text → List Text
  | _, cur, [] => [cur.reverse]
  | skip + 1, cur, _ :: cs => splitAux sep skip cur cs
  | 0, cur, c :: cs =>
    if sep.isPrefixOf (c :: cs) then cur.reverse :: splitAux sep (sep.length - 1) [] cs
    else splitAux sep 0 (c :: cur) cs

/-- The call `strings.Split(s, sep)` for a non-empty separator. -/
def splitOn (sep s : Text) : List Text := splitAux sep 0 [] s

/-- The separator of a rule line. -/
def ruleSep : Text := "=>".toList

/-- Pieces of the data between the occurrences of the character `d`. -/
def splitChar (d : Char) : Text → Text → List Text
  | cur, [] => [cur.reverse]
  | cur, c :: cs => if c = d then cur.reverse :: splitChar d [] cs else splitChar d (c :: cur) cs

/-! ## The regexp library -/

/-- The part of Go's `regexp` package the program calls: `regexp.Compile`,
`(*Regexp).MatchString`, and `(*Regexp).ReplaceAll` / `ReplaceAllString`
(source text first, replacement template second). -/
structure RegexpLib where
  Regexp : Type
  compile : Text → Option Regexp
  matchString : Regexp → Text → Bool
  replaceAll : Regexp → Text → Text → Text

/-- A rule: an entry of the map `rules`, a compiled pattern and its replacement. -/
abbrev Rule (L : RegexpLib) := L.Regexp × Text

/-- The characters with a special meaning in a pattern. -/
def isMeta (c : Char) : Bool := c ∈ "\\.+*?()|[]{}^$".toList

/-- Replace-all for a non-empty literal pattern: leftmost, non-overlapping occurrences. -/
def replaceLit (pat repl : Text) : Nat → Text → Text
  | _, [] => []
  | skip + 1, _ :: cs => replaceLit pat repl skip cs
  | 0, c :: cs =>
    if pat.isPrefixOf (c :: cs) then repl ++ replaceLit pat repl (pat.length - 1) cs
    else c :: replaceLit pat repl 0 cs

/-- Whether the literal pattern occurs somewhere in the text. -/
def containsLit (pat : Text) : Text → Bool
  | [] => pat.isEmpty
  | c :: cs => pat.isPrefixOf (c :: cs) || containsLit pat cs

/-- Replace-all of a literal pattern.  The empty pattern matches once at every position. -/
def literalReplaceAll (pat src repl : Text) : Text :=
  if pat.isEmpty then repl ++ src.flatMap (fun c => c :: repl) else replaceLit pat repl 0 src

/-- The literal fragment of the regexp library: a pattern free of metacharacters
compiles to itself and matches its own occurrences; replacement templates are taken
without `$` references.  A pattern with a metacharacter is reported as an error,
which is what Go does on the unbalanced `(` used below but not on every such pattern. -/
def literalLib : RegexpLib where
  Regexp := Text
  compile pat := if pat.all (fun c => !isMeta c) then some pat else none
  matchString pat s := containsLit pat s
  replaceAll pat src repl := literalReplaceAll pat src repl

/-! ## Loading the rules -/

/-- Constant `bufio.MaxScanTokenSize`. -/
def maxScanTokenSize : Nat := 64 * 1024

/-- Function `dropCR` of `bufio`: a trailing carriage return is not part of the line. -/
def dropCR (line : Text) : Text :=
  if line.getLast? = some '\r' then line.dropLast else line

/-- The newline-separated pieces of a file; a final empty piece is no line. -/
def rawLines (data : Text) : List Text :=
  let pieces := splitChar '\n' [] data
  if pieces.getLast? = some [] then pieces.dropLast else pieces

/-- The lines of a file as `bufio.ScanLines` cuts them. -/
def textLines (data : Text) : List Text := (rawLines data).map dropCR

/-- A `bufio.Scanner` with the default split function and buffer: the lines that
`Scan` delivers, and the value of `Err()` once `Scan` has returned false.  A line that
does not fit the buffer stops the scan with `ErrTooLong`. -/
def scanLines : List Text → List Text × Option Error
  | [] => ([], none)
  | raw :: rest =>
    if maxScanTokenSize ≤ raw.length then ([], some Error.tooLong)
    else (dropCR raw :: (scanLines rest).1, (scanLines rest).2)

/-- The loop `for scanner.Scan() { ... }` of `loadRules`; each compiled pattern is a fresh
key, so every accepted line adds one entry to the map. -/
def loadRulesLoop (L : RegexpLib) : List Text → List (Rule L) → Except Error (List (Rule L))
  | [], rules => Except.ok rules
  | line :: rest, rules =>
    match splitOn ruleSep line with
    | [pat, repl] =>
      match L.compile pat with
      | none => Except.error (Error.badPattern pat)
      | some re => loadRulesLoop L rest (rules ++ [(re, repl)])
    | _ => loadRulesLoop L rest rules

/-- Function `loadRules`; `opened` is the outcome of `os.Open(filePath)`, the bytes of
the file when it could be opened. -/
def loadRules (L : RegexpLib) (opened : Except Error Text) : Except Error (List (Rule L)) :=
  match opened with
  | Except.error e => Except.error e
  | Except.ok data =>
    match loadRulesLoop L (scanLines (rawLines data)).1 [] with
    | Except.error e => Except.error e
    | Except.ok rules =>
      match (scanLines (rawLines data)).2 with
      | some e => Except.error e
      | none => Except.ok rules

/-! ## Paths -/

/-- The text `sep`-joined from the given pieces. -/
def joinWith (sep : Text) : List Text → Text
  | [] => []
  | [x] => x
  | x :: y :: rest => x ++ sep ++ joinWith sep (y :: rest)

/-- The elements of a cleaned path: empty and `.` elements vanish, a `..` element
removes the element before it, or vanishes at the root of a rooted path, or stays
in front of an unrooted one.  `stack` holds the elements kept so far, last first. -/
def cleanElems (rooted : Bool) : List Text → List Text → List Text
  | stack, [] => stack.reverse
  | stack, e :: es =>
    if e = [] ∨ e = ['.'] then cleanElems rooted stack es
    else if e = ['.', '.'] then
      match stack with
      | [] => if rooted then cleanElems rooted [] es else cleanElems rooted [e] es
      | top :: below =>
        if top = ['.', '.'] then cleanElems rooted (e :: stack) es
        else cleanElems rooted below es
    else cleanElems rooted (e :: stack) es

/-- Function `filepath.Clean` on a system whose separator is the slash. -/
def Clean (path : Text) : Text :=
  let rooted := path.head? = some '/'
  let body := joinWith ['/'] (cleanElems rooted [] (splitChar '/' [] path))
  if rooted then '/' :: body else if body = [] then ['.'] else body

/-- Function `filepath.Join` on two elements. -/
def Join (a b : Text) : Text :=
  if a ≠ [] then Clean (a ++ '/' :: b) else if b ≠ [] then Clean b else []

/-- Function `filepath.Dir`: the cleaned text up to the last separator. -/
def Dir (path : Text) : Text :=
  Clean (path.reverse.dropWhile (fun c => c ≠ '/')).reverse

/-- Function `basename` of package `os`, which names the `FileInfo` of `os.Lstat`:
trailing separators are removed, then everything up to the last separator. -/
def basename (name : Text) : Text :=
  match name.reverse.dropWhile (fun c => c = '/') with
  | [] => name.take 1
  | c :: cs => (List.takeWhile (fun d => d ≠ '/') (c :: cs)).reverse

/-- Byte-wise order of two texts, as Go compares strings. -/
def textLt : Text → Text → Bool
  | [], [] => false
  | [], _ :: _ => true
  | _ :: _, [] => false
  | a :: as, b :: bs => a.toNat < b.toNat || (a = b && textLt as bs)

/-- Insertion into a sorted list of names. -/
def insertName (x : Text) : List Text → List Text
  | [] => [x]
  | y :: ys => if textLt y x then y :: insertName x ys else x :: y :: ys

/-- Function `sort.Strings`. -/
def sortNames : List Text → List Text
  | [] => []
  | x :: xs => insertName x (sortNames xs)

/-! ## The filesystem -/

/-- Permission bits of a file (`os.FileMode` of a regular file or directory). -/
abbrev FileMode := Nat

/-- A filesystem object. -/
inductive Node
  | file (content : Text) (mode : FileMode)
  | dir (mode : FileMode)
  deriving DecidableEq, Repr

/-- The state of the filesystem: the objects by cleaned path, the first entry of a
path being the one found. -/
abbrev FS := List (Text × Node)

/-- The value of `os.FileInfo` the program looks at. -/
structure FileInfo where
  name : Text
  isDir : Bool
  mode : FileMode
  deriving DecidableEq, Repr

/-- Owner may read (bit `0400`). -/
def ownerReads (m : FileMode) : Bool := m / 256 % 2 = 1

/-- Owner may write (bit `0200`). -/
def ownerWrites (m : FileMode) : Bool := m / 128 % 2 = 1

/-- The object stored under a key. -/
def FS.find (fs : FS) (key : Text) : Option Node :=
  match fs with
  | [] => none
  | (k, n) :: rest => if k = key then some n else FS.find rest key

/-- The filesystem without the key. -/
def FS.remove (fs : FS) (key : Text) : FS :=
  match fs with
  | [] => []
  | (k, n) :: rest => if k = key then FS.remove rest key else (k, n) :: FS.remove rest key

/-- The filesystem with `node` under the key, in the place of what was there. -/
def FS.put (fs : FS) (key : Text) (node : Node) : FS :=
  match fs with
  | [] => [(key, node)]
  | (k, n) :: rest =>
    if k = key then (key, node) :: FS.remove rest key else (k, n) :: FS.put rest key node

/-- The object a path names. -/
def FS.lookup (fs : FS) (path : Text) : Option Node := fs.find (Clean path)

/-- Whether the parent of a path is a directory. -/
def FS.parentIsDir (fs : FS) (path : Text) : Bool :=
  match fs.lookup (Dir (Clean path)) with
  | some (Node.dir _) => true
  | _ => false

/-- Function `os.Lstat`. -/
def lstat (fs : FS) (path : Text) : Except Error FileInfo :=
  match fs.lookup path with
  | none => Except.error (Error.notExist path)
  | some (Node.file _ m) => Except.ok { name := basename path, isDir := false, mode := m }
  | some (Node.dir m) => Except.ok { name := basename path, isDir := true, mode := m }

/-- Function `ioutil.ReadFile`. -/
def readFile (fs : FS) (path : Text) : Except Error Text :=
  match fs.lookup path with
  | none => Except.error (Error.notExist path)
  | some (Node.dir _) => Except.error (Error.isDirectory path)
  | some (Node.file c m) => if ownerReads m then Except.ok c else Except.error (Error.permission path)

/-- Function `ioutil.WriteFile`: an existing file is truncated and keeps its mode, the
permission argument counting only when the file is created. -/
def writeFile (fs : FS) (path : Text) (data : Text) (perm : FileMode) : Except Error FS :=
  match fs.lookup path with
  | some (Node.dir _) => Except.error (Error.isDirectory path)
  | some (Node.file _ m) =>
    if ownerWrites m then Except.ok (fs.put (Clean path) (Node.file data m))
    else Except.error (Error.permission path)
  | none =>
    if fs.parentIsDir path then Except.ok (fs.put (Clean path) (Node.file data perm))
    else Except.error (Error.notExist path)

/-- Function `os.Rename` on a regular file: the file takes the new path, replacing a
file already there; a directory at the new path, or no directory to hold it, is an
error.  Renaming a path to itself does nothing.  The program never renames a
directory, and the model reports that as an error. -/
def rename (fs : FS) (oldpath newpath : Text) : Except Error FS :=
  match fs.lookup oldpath with
  | none => Except.error (Error.notExist oldpath)
  | some (Node.dir _) => Except.error (Error.isDirectory oldpath)
  | some (Node.file c m) =>
    if Clean oldpath = Clean newpath then Except.ok fs
    else if fs.parentIsDir newpath then
      match fs.lookup newpath with
      | some (Node.dir _) => Except.error (Error.isDirectory newpath)
      | _ => Except.ok ((fs.remove (Clean oldpath)).put (Clean newpath) (Node.file c m))
    else Except.error (Error.notExist newpath)

/-- The texts that name a directory entry: not empty, without a separator, and neither
`.` nor `..`. -/
def validName (name : Text) : Bool :=
  decide (name ≠ [] ∧ '/' ∉ name ∧ name ≠ ['.'] ∧ name ≠ ['.', '.'])

/-- The names of the objects directly inside the directory with the given key. -/
def childNames (fs : FS) (key : Text) : List Text :=
  (fs.filter (fun e => decide (e.1 ≠ key ∧ Dir e.1 = key) && validName (basename e.1))).map
    (fun e => basename e.1)

/-- Function `readDirNames` of `filepath`: the sorted names of a directory. -/
def readDirNames (fs : FS) (dirname : Text) : Except Error (List Text) :=
  match fs.lookup dirname with
  | none => Except.error (Error.notExist dirname)
  | some (Node.file _ _) => Except.error (Error.notDirectory dirname)
  | some (Node.dir m) =>
    if ownerReads m then Except.ok (sortNames (childNames fs (Clean dirname)))
    else Except.error (Error.permission dirname)

/-! ## The walker -/

/-- What the callback hands back to `filepath.Walk`: `nil`, `filepath.SkipDir`, or an
error that stops the walk. -/
inductive Signal
  | nil
  | skipDir
  | err (e : Error)
  deriving DecidableEq, Repr

/-- A line printed by the callback. -/
inductive Report
  | substitutions (dryRun : Bool) (path : Text)
  | renamed (dryRun : Bool) (path newPath : Text)
  deriving DecidableEq, Repr

/-- The text of a printed line, without its newline. -/
def Report.render : Report → Text
  | Report.substitutions true path => "DRY RUN: Making substitutions in ".toList ++ path
  | Report.substitutions false path => "Made substitutions in ".toList ++ path
  | Report.renamed true path newPath =>
    "DRY RUN: Would rename ".toList ++ path ++ " to ".toList ++ newPath
  | Report.renamed false path newPath => "Renamed ".toList ++ path ++ " to ".toList ++ newPath

/-- The filesystem change a printed line of a live run stands for, or the change a
line of a dry run announces: the kind of change and its paths, whatever the mode. -/
def Report.change : Report → Bool × Text × Text
  | Report.substitutions _ path => (false, path, path)
  | Report.renamed _ path newPath => (true, path, newPath)

/-- One `range` over the map `rules`: the runtime hands out the entries in an order of
its choosing. -/
structure RangeOrder (L : RegexpLib) (rules : List (Rule L)) where
  order : List (Rule L)
  perm : order.Perm rules

/-- The orders the runtime picks for the two `range` loops of a visit, by the path
visited. -/
structure Runtime (L : RegexpLib) (rules : List (Rule L)) where
  content : Text → RangeOrder L rules
  name : Text → RangeOrder L rules

/-- The runtime that iterates in insertion order every time. -/
def Runtime.insertion (L : RegexpLib) (rules : List (Rule L)) : Runtime L rules where
  content _ := ⟨rules, List.Perm.refl rules⟩
  name _ := ⟨rules, List.Perm.refl rules⟩

/-- The loops `for re, replacement := range rules { text = re.ReplaceAll(text, replacement) }`
run over the entries in the order given. -/
def rangeLoop (L : RegexpLib) : List (Rule L) → Text → Text
  | [], text => text
  | (re, replacement) :: rest, text => rangeLoop L rest (L.replaceAll re text replacement)

/-- The loop over `ignoreList`: the value returned at the first pattern that matches the
path, if one does. -/
def ignoreLoop (L : RegexpLib) (isDir : Bool) (path : Text) : List L.Regexp → Option Signal
  | [] => none
  | ignore :: rest =>
    if L.matchString ignore path then
      (if isDir then some Signal.skipDir else some Signal.nil)
    else ignoreLoop L isDir path rest

/-- The second half of the body for a file: the name loop and the rename. -/
def nameStep (L : RegexpLib) {rules : List (Rule L)} (rt : Runtime L rules) (dryRun : Bool)
    (fs : FS) (path : Text) (info : FileInfo) : FS × List Report × Signal :=
  let newName := rangeLoop L (rt.name path).order info.name
  if newName ≠ info.name then
    let newPath := Join (Dir path) newName
    if dryRun then (fs, [Report.renamed true path newPath], Signal.nil)
    else
      match rename fs path newPath with
      | Except.error e => (fs, [], Signal.err e)
      | Except.ok fs1 => (fs1, [Report.renamed false path newPath], Signal.nil)
  else (fs, [], Signal.nil)

/-- The callback given to `filepath.Walk` in `renameFilesAndContent`.  Calling it with
neither an error nor a file info is a nil dereference in Go. -/
def visit (L : RegexpLib) {rules : List (Rule L)} (rt : Runtime L rules)
    (ignoreList : List L.Regexp) (dryRun : Bool)
    (fs : FS) (path : Text) (info : Option FileInfo) (err : Option Error) :
    FS × List Report × Signal :=
  match err with
  | some e => (fs, [], Signal.err e)
  | none =>
    match info with
    | none => (fs, [], Signal.err Error.nilInfo)
    | some info =>
      match ignoreLoop L info.isDir path ignoreList with
      | some s => (fs, [], s)
      | none =>
        if info.isDir then (fs, [], Signal.nil)
        else
          match readFile fs path with
          | Except.error e => (fs, [], Signal.err e)
          | Except.ok oldContent =>
            let newContent := rangeLoop L (rt.content path).order oldContent
            if oldContent ≠ newContent then
              if dryRun then
                let r := nameStep L rt dryRun fs path info
                (r.1, Report.substitutions true path :: r.2.1, r.2.2)
              else
                match writeFile fs path newContent info.mode with
                | Except.error e => (fs, [], Signal.err e)
                | Except.ok fs1 =>
                  let r := nameStep L rt dryRun fs1 path info
                  (r.1, Report.substitutions false path :: r.2.1, r.2.2)
            else nameStep L rt dryRun fs path info

/-- The type `filepath.WalkFunc` of a callback, as a function of the filesystem: the
filesystem after the call, what the call printed, the value returned.  `α` is the type
of a printed item. -/
abbrev WalkFunc (α : Type) := FS → Text → Option FileInfo → Option Error → FS × List α × Signal

/-- The loop `for _, name := range names` of `walk` in `path/filepath`, `walkDir` being the
recursive call. -/
def walkNames {α : Type} (walkFn : WalkFunc α)
    (walkDir : FS → Text → FileInfo → FS × List α × Signal)
    (path : Text) : List Text → FS → FS × List α × Signal
  | [], fs => (fs, [], Signal.nil)
  | name :: rest, fs =>
    let filename := Join path name
    match lstat fs filename with
    | Except.error e =>
      let r := walkFn fs filename none (some e)
      if r.2.2 ≠ Signal.nil ∧ r.2.2 ≠ Signal.skipDir then r
      else
        let r1 := walkNames walkFn walkDir path rest r.1
        (r1.1, r.2.1 ++ r1.2.1, r1.2.2)
    | Except.ok fileInfo =>
      let r := walkDir fs filename fileInfo
      if r.2.2 ≠ Signal.nil ∧ (!fileInfo.isDir ∨ r.2.2 ≠ Signal.skipDir) then r
      else
        let r1 := walkNames walkFn walkDir path rest r.1
        (r1.1, r.2.1 ++ r1.2.1, r1.2.2)

/-- Function `walk` of `path/filepath`.  The names of a directory are read before the
callback sees the directory.  The fuel bounds the depth of the descent. -/
def walk {α : Type} (walkFn : WalkFunc α) : Nat → FS → Text → FileInfo → FS × List α × Signal
  | 0, fs, _, _ => (fs, [], Signal.err Error.outOfFuel)
  | fuel + 1, fs, path, info =>
    if !info.isDir then walkFn fs path (some info) none
    else
      match readDirNames fs path with
      | Except.error e => walkFn fs path (some info) (some e)
      | Except.ok names =>
        let r := walkFn fs path (some info) none
        if r.2.2 ≠ Signal.nil then r
        else
          let r1 := walkNames walkFn (walk walkFn fuel) path names r.1
          (r1.1, r.2.1 ++ r1.2.1, r1.2.2)

/-- Function `filepath.Walk`: the filesystem afterwards, what was printed, the error
returned. -/
def Walk {α : Type} (walkFn : WalkFunc α) (fuel : Nat) (fs : FS) (root : Text) :
    FS × List α × Option Error :=
  let r :=
    match lstat fs root with
    | Except.error e => walkFn fs root none (some e)
    | Except.ok info => walk walkFn fuel fs root info
  match r.2.2 with
  | Signal.err e => (r.1, r.2.1, some e)
  | _ => (r.1, r.2.1, none)

/-- Function `renameFilesAndContent`. -/
def renameFilesAndContent (L : RegexpLib) {rules : List (Rule L)} (rt : Runtime L rules)
    (fuel : Nat) (fs : FS) (root : Text) (ignoreList : List L.Regexp) (dryRun : Bool) :
    FS × List Report × Option Error :=
  Walk (visit L rt ignoreList dryRun) fuel fs root

/-! ## Definitions of the specification -/

/-- The text `apply(ruleSet, input)` of the specification: the left fold of a sequence of
rules over the input, each rule a replace-all on the output of the rule before. -/
def declaredFold (L : RegexpLib) (rules : List (Rule L)) (input : Text) : Text :=
  rules.foldl (fun text r => L.replaceAll r.1 text r.2) input

/-- The rule a line stands for: a line of exactly two fields whose first field
compiles gives the compiled pattern with the second field as replacement. -/
def ruleOfLine (L : RegexpLib) (line : Text) : Option (Rule L) :=
  match splitOn ruleSep line with
  | [pat, repl] => (L.compile pat).map (fun re => (re, repl))
  | _ => none

/-- A line of exactly two fields whose first field does not compile. -/
def badLine (L : RegexpLib) (line : Text) : Bool :=
  match splitOn ruleSep line with
  | [pat, _] => (L.compile pat).isNone
  | _ => false

/-- The content the callback computes for a file with content `c`. -/
def newContent (L : RegexpLib) {rules : List (Rule L)} (rt : Runtime L rules)
    (path c : Text) : Text :=
  rangeLoop L (rt.content path).order c

/-- The base name the callback computes for an entry. -/
def newName (L : RegexpLib) {rules : List (Rule L)} (rt : Runtime L rules)
    (path : Text) (info : FileInfo) : Text :=
  rangeLoop L (rt.name path).order info.name

/-- The destination the callback computes for an entry: its parent directory joined
with the rewritten name. -/
def newPath (L : RegexpLib) {rules : List (Rule L)} (rt : Runtime L rules)
    (path : Text) (info : FileInfo) : Text :=
  Join (Dir path) (newName L rt path info)

/-- Function `shouldIgnore` of the specification: some pattern of the list matches
somewhere in the path. -/
def shouldIgnore (L : RegexpLib) (ignoreList : List L.Regexp) (path : Text) : Bool :=
  ignoreList.any (fun ignore => L.matchString ignore path)

/-- No pattern of the rules matches anywhere in the text. -/
def unmatched (L : RegexpLib) (rules : List (Rule L)) (text : Text) : Bool :=
  rules.all (fun r => !L.matchString r.1 text)

/-- A tree converted to texts that no pattern matches: the name of every entry and the
content of every file. -/
def converted (L : RegexpLib) (rules : List (Rule L)) (fs : FS) : Bool :=
  fs.all (fun e => unmatched L rules (basename e.1) &&
    match e.2 with
    | Node.file c _ => unmatched L rules c
    | Node.dir _ => true)

/-- The law of `ReplaceAll` that a source without a match is returned as it is. -/
def NoMatchFixed (L : RegexpLib) : Prop :=
  ∀ re src repl, L.matchString re src = false → L.replaceAll re src repl = src

/-- The prefix of every line a dry run prints. -/
def dryTag : Text := "DRY RUN:".toList

/-- A callback that, on the filesystem `fs`, changes nothing and prints only items with
the property `P`, whenever the file info it is given has the property `Q`. -/
def Quiet {α : Type} (walkFn : WalkFunc α) (fs : FS) (P : α → Prop) (Q : FileInfo → Prop) :
    Prop :=
  ∀ p i e, (∀ info, i = some info → Q info) →
    (walkFn fs p i e).1 = fs ∧ ∀ r ∈ (walkFn fs p i e).2.1, P r

/-- A rule file made of one line of 65536 letters. -/
def longFile : Text := List.replicate maxScanTokenSize 'a'

/-- The elements of the cleaned form of a path. -/
def pathElems (path : Text) : List Text :=
  cleanElems (decide (path.head? = some '/')) [] (splitChar '/' [] path)

/-- The text of a cleaned path, from whether it is rooted and its elements. -/
def renderPath (rooted : Bool) (elems : List Text) : Text :=
  if rooted then '/' :: joinWith ['/'] elems
  else if joinWith ['/'] elems = [] then ['.'] else joinWith ['/'] elems

/-- The number of elements of the cleaned form of a path. -/
def depth (path : Text) : Nat := (pathElems path).length

/-- The lists of elements of cleaned paths: `..` elements, in front of an unrooted path
only, then names. -/
def wellFormed (rooted : Bool) : List Text → Bool
  | [] => true
  | e :: es =>
    if e = ['.', '.'] then !rooted && wellFormed rooted es
    else validName e && es.all validName

/-- A bound on the depth of every key of a filesystem. -/
def maxDepth : FS → Nat
  | [] => 0
  | e :: rest => max (depth e.1) (maxDepth rest)

/-- Every directory of `fs` is a directory of `orig`. -/
def DirsIn (orig fs : FS) : Prop :=
  ∀ k m, fs.find k = some (Node.dir m) → orig.find k = some (Node.dir m)

/-- The callback that also records the path of every call: a walk with it returns the
log of the walk, the paths visited in order, each with what the callback printed there. -/
def logged (walkFn : WalkFunc Report) : WalkFunc (Text × List Report) :=
  fun fs path info err =>
    ((walkFn fs path info err).1, [(path, (walkFn fs path info err).2.1)],
      (walkFn fs path info err).2.2)

/-- The keys a reported change touches: the file rewritten, the source and the
destination of a rename, each with the directory that lists it. -/
def Report.touched : Report → List Text
  | Report.substitutions _ path => [Clean path, Dir (Clean path)]
  | Report.renamed _ path dest =>
    [Clean path, Dir (Clean path), Clean dest, Dir (Clean dest)]

/-- The reports of a log. -/
def announced (log : List (Text × List Report)) : List Report := log.flatMap (fun v => v.2)

/-- The keys touched by the reports of a log. -/
def touchedBy (log : List (Text × List Report)) : List Text :=
  (announced log).flatMap Report.touched

/-- A log in which no visit comes after a change that touched the visited path: `seen`
are the keys touched before the log starts. -/
def undisturbed : List Text → List (Text × List Report) → Bool
  | _, [] => true
  | seen, (path, reports) :: rest =>
    decide (Clean path ∉ seen) && undisturbed (seen ++ reports.flatMap Report.touched) rest

/-- Two filesystems that name the same object and list the same names at every key
outside `seen`. -/
def Agree (seen : List Text) (fs fsL : FS) : Prop :=
  ∀ k, k ∉ seen → fsL.find k = fs.find k ∧ childNames fsL k = childNames fs k

/-- The operation a report stands for, attempted on the filesystem `fs`: the write of
what the rules make of the content that `orig` holds at the path, or the rename of
the path to the destination. -/
def attempt (L : RegexpLib) {rules : List (Rule L)} (rt : Runtime L rules) (orig fs : FS) :
    Report → Except Error FS
  | Report.substitutions _ path =>
    match orig.lookup path with
    | some (Node.file c m) => writeFile fs path (newContent L rt path c) m
    | _ => Except.error (Error.notExist path)
  | Report.renamed _ path dest => rename fs path dest

/-- The operations of a list of reports attempted one after the other, up to the first
that fails. -/
def carryOut (L : RegexpLib) {rules : List (Rule L)} (rt : Runtime L rules) (orig : FS) :
    FS → List Report → Except Error FS
  | fs, [] => Except.ok fs
  | fs, r :: rest =>
    match attempt L rt orig fs r with
    | Except.error e => Except.error e
    | Except.ok fs1 => carryOut L rt orig fs1 rest

/-- The outcome `l` of a stretch of a live walk that started on `start`, beside the
outcome `d` of the same stretch of the logged dry walk on `fs`.  Either the live stretch
stopped on an error, and then the dry one stopped on an error too or one of the
operations it announced fails when they are carried out from `start`; or the live
stretch returned what the dry one returned, reported the changes the dry one
announced, left a filesystem that agrees with `fs` outside the keys touched so far,
and that filesystem is what carrying out the announced operations from `start` gives. -/
def Simulates (L : RegexpLib) {rules : List (Rule L)} (rt : Runtime L rules)
    (seen : List Text) (fs start : FS) (d : FS × List (Text × List Report) × Signal)
    (l : FS × List Report × Signal) : Prop :=
  (∃ e, l.2.2 = Signal.err e ∧
    ((∃ e', d.2.2 = Signal.err e') ∨
      ∃ e', carryOut L rt fs start (announced d.2.1) = Except.error e')) ∨
  (l.2.2 = d.2.2 ∧ l.2.1.map Report.change = (announced d.2.1).map Report.change ∧
    Agree (seen ++ touchedBy d.2.1) fs l.1 ∧
    carryOut L rt fs start (announced d.2.1) = Except.ok l.1)

/-- The outcome `dl` of a stretch of a logged walk and the outcome `d` of the same stretch
of the walk itself: the same filesystem, reports and signal. -/
def Logs (dl : FS × List (Text × List Report) × Signal) (d : FS × List Report × Signal) :
    Prop :=
  dl.1 = d.1 ∧ announced dl.2.1 = d.2.1 ∧ dl.2.2 = d.2.2

/-- The error that `filepath.Walk` returns for the signal of its first call. -/
def Signal.toError : Signal → Option Error
  | Signal.err e => some e
  | _ => none

/-! ## Concrete inputs -/

/-- The rule `foo=>bar`. -/
def fooBar : List (Rule literalLib) := [("foo".toList, "bar".toList)]

/-- A rule file with two rules, the second matching the output of the first. -/
def chainFile : Text := "a=>b\nb=>c".toList

/-- The rules of `chainFile`, in the order of its lines. -/
def chainRules : List (Rule literalLib) :=
  [("a".toList, "b".toList), ("b".toList, "c".toList)]

/-- A runtime that iterates the two rules of `chainRules` last first. -/
def reversedRuntime : Runtime literalLib chainRules where
  content _ := ⟨[("b".toList, "c".toList), ("a".toList, "b".toList)], List.Perm.swap _ _ _⟩
  name _ := ⟨[("b".toList, "c".toList), ("a".toList, "b".toList)], List.Perm.swap _ _ _⟩

/-- A directory holding the file `f` with content `a`. -/
def chainTree : FS :=
  [(".".toList, Node.dir 493), ("f".toList, Node.file "a".toList 420)]

/-- A directory holding the file `a` with content `a`. -/
def chainNamed : FS :=
  [(".".toList, Node.dir 493), ("a".toList, Node.file "a".toList 420)]

/-- Scenario A: the file `foo.txt` holding `foo123`. -/
def sceneA : FS :=
  [(".".toList, Node.dir 493), ("foo.txt".toList, Node.file "foo123".toList 420)]

/-- Scenario A after the run. -/
def sceneAdone : FS :=
  [(".".toList, Node.dir 493), ("bar.txt".toList, Node.file "bar123".toList 420)]

/-- A directory named `foo` holding the file `x`. -/
def dirTree : FS :=
  [(".".toList, Node.dir 493), ("foo".toList, Node.dir 493),
   ("foo/x".toList, Node.file "y".toList 420)]

/-- A tree with a directory `vendor` that its owner may not list, and a file `zzz`. -/
def lockedTree : FS :=
  [(".".toList, Node.dir 493), ("vendor".toList, Node.dir 0),
   ("zzz".toList, Node.file "foo".toList 420)]

/-- A tree with a directory `vendor` holding `foo`, and a file `zzz`. -/
def vendorTree : FS :=
  [(".".toList, Node.dir 493), ("vendor".toList, Node.dir 493),
   ("vendor/foo".toList, Node.file "foo".toList 420),
   ("zzz".toList, Node.file "foo".toList 420)]

/-- The file `foo.txt` holding `foo`, which its owner may read but not write. -/
def readOnlyTree : FS :=
  [(".".toList, Node.dir 493), ("foo.txt".toList, Node.file "foo".toList 292)]

/-- The rule `a=>b`. -/
def aToB : List (Rule literalLib) := [("a".toList, "b".toList)]

/-- A directory with the files `a`, holding `x`, and `b`, holding `a`. -/
def clashTree : FS :=
  [(".".toList, Node.dir 493), ("a".toList, Node.file "x".toList 420),
   ("b".toList, Node.file "a".toList 420)]

/-- A directory with the files `a`, holding `a`, and `b`, holding `zzz` with mode `0600`. -/
def overwriteTree : FS :=
  [(".".toList, Node.dir 493), ("a".toList, Node.file "a".toList 420),
   ("b".toList, Node.file "zzz".toList 384)]

/-! ## Loading the rules: proofs -/

theorem badLine_iff (L : RegexpLib) (line : Text) :
    badLine L line = true ↔
      ∃ pat repl, splitOn ruleSep line = [pat, repl] ∧ L.compile pat = none := by
  unfold badLine
  split
  · rename_i pat repl hsp
    constructor
    · intro h
      exact ⟨pat, repl, hsp, by simpa using h⟩
    · rintro ⟨p, r, hs, hn⟩
      rw [hsp] at hs
      simp only [List.cons.injEq, and_true] at hs
      rw [hs.1]; simp [hn]
  · rename_i hne
    constructor
    · intro h; cases h
    · rintro ⟨p, r, hs, _⟩
      exact absurd hs (hne p r)

theorem scanLines_short (raws : List Text)
    (h : ∀ raw ∈ raws, raw.length < maxScanTokenSize) :
    scanLines raws = (raws.map dropCR, none) := by
  induction raws with
  | nil => rfl
  | cons raw rest ih =>
    have h1 : ¬ maxScanTokenSize ≤ raw.length := by
      have := h raw (List.mem_cons_self _ _); omega
    have h2 := ih (fun r hr => h r (List.mem_cons_of_mem _ hr))
    simp [scanLines, h1, h2]

theorem scanLines_long (raws : List Text)
    (h : ∃ raw ∈ raws, maxScanTokenSize ≤ raw.length) :
    (scanLines raws).2 = some Error.tooLong := by
  induction raws with
  | nil => simp at h
  | cons raw rest ih =>
    by_cases h1 : maxScanTokenSize ≤ raw.length
    · simp [scanLines, h1]
    · have h2 : ∃ r ∈ rest, maxScanTokenSize ≤ r.length := by
        obtain ⟨r, hr, hl⟩ := h
        rcases List.mem_cons.1 hr with rfl | hr
        · exact absurd hl h1
        · exact ⟨r, hr, hl⟩
      simp [scanLines, h1, ih h2]

theorem loadRulesLoop_ok (L : RegexpLib) (lines : List Text) (acc : List (Rule L))
    (h : ∀ line ∈ lines, badLine L line = false) :
    loadRulesLoop L lines acc = Except.ok (acc ++ lines.filterMap (ruleOfLine L)) := by
  induction lines generalizing acc with
  | nil => simp [loadRulesLoop]
  | cons line rest ih =>
    have hrest : ∀ l ∈ rest, badLine L l = false := fun l hl => h l (List.mem_cons_of_mem _ hl)
    have hline := h line (List.mem_cons_self _ _)
    unfold loadRulesLoop
    split
    · rename_i pat repl hsp
      cases hc : L.compile pat with
      | none => simp [badLine, hsp, hc] at hline
      | some re =>
        simp only []
        rw [ih _ hrest]
        simp [List.filterMap_cons, ruleOfLine, hsp, hc]
    · rename_i hne
      rw [ih _ hrest]
      have : ruleOfLine L line = none := by
        unfold ruleOfLine
        split
        · rename_i pat repl hsp; exact absurd hsp (hne pat repl)
        · rfl
      simp [List.filterMap_cons, this]

theorem loadRulesLoop_bad (L : RegexpLib) (lines : List Text) (acc : List (Rule L))
    (h : ∃ line ∈ lines, badLine L line = true) :
    ∃ pat, loadRulesLoop L lines acc = Except.error (Error.badPattern pat) := by
  induction lines generalizing acc with
  | nil => simp at h
  | cons line rest ih =>
    unfold loadRulesLoop
    split
    · rename_i pat repl hsp
      cases hc : L.compile pat with
      | none => exact ⟨pat, rfl⟩
      | some re =>
        simp only []
        apply ih
        obtain ⟨l, hl, hb⟩ := h
        rcases List.mem_cons.1 hl with rfl | hl
        · simp [badLine, hsp, hc] at hb
        · exact ⟨l, hl, hb⟩
    · rename_i hne
      apply ih
      obtain ⟨l, hl, hb⟩ := h
      rcases List.mem_cons.1 hl with rfl | hl
      · obtain ⟨p, r, hs, _⟩ := (badLine_iff L l).1 hb
        exact absurd hs (hne p r)
      · exact ⟨l, hl, hb⟩

theorem splitChar_replicate (n : Nat) (cur : Text) :
    splitChar '\n' cur (List.replicate n 'a') = [cur.reverse ++ List.replicate n 'a'] := by
  induction n generalizing cur with
  | zero => simp [splitChar]
  | succ n ih =>
    have hne : ¬ ('a' = '\n') := by decide
    simp [List.replicate_succ, splitChar, hne, ih]

theorem splitAux_replicate (n : Nat) (cur : Text) :
    splitAux ruleSep 0 cur (List.replicate n 'a') = [cur.reverse ++ List.replicate n 'a'] := by
  induction n generalizing cur with
  | zero => simp [splitAux]
  | succ n ih =>
    have hp : ruleSep.isPrefixOf ('a' :: List.replicate n 'a') = false := by
      simp [ruleSep, List.isPrefixOf]
    simp [List.replicate_succ, splitAux, hp, ih]

theorem rawLines_replicate (n : Nat) (hn : 0 < n) :
    rawLines (List.replicate n 'a') = [List.replicate n 'a'] := by
  have h := splitChar_replicate n []
  simp only [List.reverse_nil, List.nil_append] at h
  unfold rawLines
  rw [h]
  have hne : List.replicate n 'a' ≠ [] := by
    intro h0
    have := congrArg List.length h0
    simp at this; omega
  simp [hne]

theorem dropCR_replicate (n : Nat) : dropCR (List.replicate n 'a') = List.replicate n 'a' := by
  unfold dropCR
  have : ¬ ((List.replicate n 'a').getLast? = some '\r') := by
    intro h
    have hm : '\r' ∈ List.replicate n 'a' := List.mem_of_mem_getLast? h
    have := List.eq_of_mem_replicate hm
    revert this; decide
  simp [this]

theorem loadRules_good (L : RegexpLib) (data : Text)
    (hshort : ∀ raw ∈ rawLines data, raw.length < maxScanTokenSize)
    (hnb : ¬ ∃ line ∈ textLines data, badLine L line = true) :
    loadRules L (Except.ok data) = Except.ok ((textLines data).filterMap (ruleOfLine L)) := by
  have hs := scanLines_short _ hshort
  have hall : ∀ line ∈ (rawLines data).map dropCR, badLine L line = false := by
    intro l hl
    cases hb : badLine L l with
    | false => rfl
    | true => exact absurd ⟨l, hl, hb⟩ hnb
  simp [loadRules, hs, loadRulesLoop_ok L _ [] hall, textLines]

theorem loadRules_bad (L : RegexpLib) (data : Text)
    (hshort : ∀ raw ∈ rawLines data, raw.length < maxScanTokenSize)
    (hb : ∃ line ∈ textLines data, badLine L line = true) :
    ∃ e, loadRules L (Except.ok data) = Except.error e := by
  have hs := scanLines_short _ hshort
  obtain ⟨pat, hp⟩ := loadRulesLoop_bad L ((rawLines data).map dropCR) [] hb
  exact ⟨Error.badPattern pat, by simp [loadRules, hs, hp]⟩

theorem loadRules_long (L : RegexpLib) (data : Text)
    (hlong : ∃ raw ∈ rawLines data, maxScanTokenSize ≤ raw.length) :
    ∃ e, loadRules L (Except.ok data) = Except.error e := by
  have hl := scanLines_long _ hlong
  unfold loadRules
  simp only []
  cases hloop : loadRulesLoop L (scanLines (rawLines data)).1 [] with
  | error e => exact ⟨e, rfl⟩
  | ok rules => exact ⟨Error.tooLong, by simp [hl]⟩

theorem loadRules_replicate (n : Nat) (hn : maxScanTokenSize ≤ n) :
    loadRules literalLib (Except.ok (List.replicate n 'a')) = Except.error Error.tooLong := by
  have hpos : 0 < n := Nat.lt_of_lt_of_le (by decide) hn
  have hlen : maxScanTokenSize ≤ (List.replicate n 'a').length := by
    rw [List.length_replicate]; exact hn
  have hscan : scanLines [List.replicate n 'a'] = ([], some Error.tooLong) := by
    unfold scanLines
    rw [if_pos hlen]
  unfold loadRules
  simp only [rawLines_replicate n hpos, hscan, loadRulesLoop]

theorem badLine_replicate (n : Nat) (hn : 0 < n) :
    ¬ ∃ line ∈ textLines (List.replicate n 'a'), badLine literalLib line = true := by
  rintro ⟨line, hl, hb⟩
  simp only [textLines, rawLines_replicate n hn, List.map_cons, List.map_nil,
    dropCR_replicate, List.mem_singleton] at hl
  subst hl
  obtain ⟨pat, repl, hsp, _⟩ := (badLine_iff _ _).1 hb
  have h := splitAux_replicate n []
  simp only [List.reverse_nil, List.nil_append] at h
  unfold splitOn at hsp
  rw [h] at hsp
  simp at hsp

/-- The unbalanced pattern `(` of the line `(=>x` does not compile, and nothing is loaded. -/
theorem loadRules_unbalanced :
    loadRules literalLib (Except.ok "foo=>bar\n(=>x".toList) =
      Except.error (Error.badPattern "(".toList) := rfl

/-- C7, amended: a rule file whose lines all fit the scanner's buffer fails to load exactly
when a two-field line has a first field that does not compile, and otherwise loads to
one rule per two-field line, in the order of the lines, the replacement verbatim; a file
with a line of `maxScanTokenSize` bytes or more never loads. -/
theorem C7_loadRules (L : RegexpLib) (data : Text) :
    ((∀ raw ∈ rawLines data, raw.length < maxScanTokenSize) →
      ((∃ e, loadRules L (Except.ok data) = Except.error e) ↔
          ∃ line ∈ textLines data, badLine L line = true) ∧
      ((¬ ∃ line ∈ textLines data, badLine L line = true) →
        loadRules L (Except.ok data) = Except.ok ((textLines data).filterMap (ruleOfLine L)))) ∧
    ((∃ raw ∈ rawLines data, maxScanTokenSize ≤ raw.length) →
      ∃ e, loadRules L (Except.ok data) = Except.error e) := by
  refine ⟨fun hshort => ⟨⟨fun ⟨e, he⟩ => ?_, fun hb => ?_⟩, fun hnb => ?_⟩, fun hlong => ?_⟩
  · by_contra hnb
    rw [loadRules_good L data hshort hnb] at he
    cases he
  · exact loadRules_bad L data hshort hb
  · exact loadRules_good L data hshort hnb
  · exact loadRules_long L data hlong

/-- C7 as stated fails: a readable rule file of one line of 65536 letters does not load,
although none of its lines has two fields. -/
theorem C7_counterexample :
    loadRules literalLib (Except.ok longFile) = Except.error Error.tooLong ∧
    ¬ ∃ line ∈ textLines longFile, badLine literalLib line = true :=
  ⟨loadRules_replicate maxScanTokenSize (Nat.le_refl _),
   badLine_replicate maxScanTokenSize (by decide)⟩

/-- Witness of C7: the file `foo=>bar`, `notworking`, `a=>b=>c` has short lines and no bad line. -/
theorem C7_loadRules_witness :
    loadRules literalLib (Except.ok "foo=>bar\nnotworking\na=>b=>c\n".toList) =
      Except.ok [("foo".toList, "bar".toList)] := by
  have h := (C7_loadRules literalLib "foo=>bar\nnotworking\na=>b=>c\n".toList).1
    (by decide)
  exact h.2 (by decide)

/-! ## Paths: proofs -/

theorem splitChar_append (d : Char) (cur a b : Text) :
    splitChar d cur (a ++ d :: b) = splitChar d cur a ++ splitChar d [] b := by
  induction a generalizing cur with
  | nil => simp [splitChar]
  | cons c cs ih =>
    by_cases h : c = d
    · simp [splitChar, h, ih]
    · simp [splitChar, h, ih]

theorem splitChar_no_sep (d : Char) (cur n : Text) (h : d ∉ n) :
    splitChar d cur n = [cur.reverse ++ n] := by
  induction n generalizing cur with
  | nil => simp [splitChar]
  | cons c cs ih =>
    have hc : ¬ c = d := fun e => h (by simp [e])
    have hcs : d ∉ cs := fun e => h (List.mem_cons_of_mem _ e)
    simp [splitChar, hc, ih _ hcs]

theorem validName_spec {n : Text} (h : validName n = true) :
    n ≠ [] ∧ '/' ∉ n ∧ n ≠ ['.'] ∧ n ≠ ['.', '.'] := by
  simpa [validName] using h

theorem cleanElems_snoc (rooted : Bool) (n : Text) (hn : validName n = true)
    (xs stack : List Text) :
    ∃ l, cleanElems rooted stack (xs ++ [n]) = l ++ [n] := by
  obtain ⟨h0, _, h1, h2⟩ := validName_spec hn
  induction xs generalizing stack with
  | nil =>
    refine ⟨stack.reverse, ?_⟩
    simp [cleanElems, h0, h1, h2]
  | cons e es ih =>
    simp only [List.cons_append]
    unfold cleanElems
    split
    · exact ih _
    · split
      · split
        · split
          · exact ih _
          · exact ih _
        · split
          · exact ih _
          · exact ih _
      · exact ih _

theorem joinWith_snoc (sep : Text) (l : List Text) (n : Text) :
    joinWith sep (l ++ [n]) = n ∨ ∃ q, joinWith sep (l ++ [n]) = q ++ sep ++ n := by
  induction l with
  | nil => left; simp [joinWith]
  | cons x xs ih =>
    right
    cases xs with
    | nil => exact ⟨x, by simp [joinWith]⟩
    | cons y ys =>
      rcases ih with h | ⟨q, h⟩
      · refine ⟨x, ?_⟩
        simp only [List.cons_append] at h ⊢
        simp [joinWith, h]
      · refine ⟨x ++ sep ++ q, ?_⟩
        simp only [List.cons_append] at h ⊢
        simp [joinWith, h]

theorem basename_snoc (pre n : Text) (hn : validName n = true)
    (hpre : pre = [] ∨ ∃ q, pre = q ++ ['/']) : basename (pre ++ n) = n := by
  obtain ⟨h0, hs, _, _⟩ := validName_spec hn
  obtain ⟨c, cs, hrev⟩ : ∃ c cs, n.reverse = c :: cs := by
    cases h : n.reverse with
    | nil => exact absurd (List.reverse_eq_nil_iff.1 h) h0
    | cons c cs => exact ⟨c, cs, rfl⟩
  have hall : ∀ x ∈ n.reverse, x ≠ '/' := fun x hx e => hs (by
    rw [← e]; exact List.mem_reverse.1 hx)
  have hc : c ≠ '/' := hall c (by rw [hrev]; exact List.mem_cons_self _ _)
  have htake : ∀ rest : Text, (rest = [] ∨ ∃ r, rest = '/' :: r) →
      List.takeWhile (fun d => decide (d ≠ '/')) (n.reverse ++ rest) = n.reverse := by
    intro rest hrest
    have : ∀ l : Text, (∀ x ∈ l, x ≠ '/') →
        List.takeWhile (fun d => decide (d ≠ '/')) (l ++ rest) = l := by
      intro l hl
      induction l with
      | nil =>
        rcases hrest with rfl | ⟨r, rfl⟩
        · simp
        · simp [List.takeWhile]
      | cons y ys ih =>
        have hy : y ≠ '/' := hl y (List.mem_cons_self _ _)
        simpa [List.takeWhile, hy] using ih (fun x hx => hl x (List.mem_cons_of_mem _ hx))
    exact this _ hall
  unfold basename
  have hr : (pre ++ n).reverse = c :: (cs ++ pre.reverse) := by
    rw [List.reverse_append, hrev]; rfl
  rw [hr]
  have hd : List.dropWhile (fun x => decide (x = '/')) (c :: (cs ++ pre.reverse)) =
      c :: (cs ++ pre.reverse) := by
    simp [List.dropWhile, hc]
  rw [hd]
  simp only []
  have hrest : pre.reverse = [] ∨ ∃ r, pre.reverse = '/' :: r := by
    rcases hpre with rfl | ⟨q, rfl⟩
    · left; rfl
    · right; exact ⟨q.reverse, by simp⟩
  have h2 := htake pre.reverse hrest
  rw [hrev] at h2
  simp only [List.cons_append] at h2
  rw [h2, ← hrev, List.reverse_reverse]

theorem Clean_snoc (s n : Text) (hn : validName n = true) :
    ∃ pre, Clean (s ++ '/' :: n) = pre ++ n ∧ (pre = [] ∨ ∃ q, pre = q ++ ['/']) := by
  obtain ⟨h0, hs, _, _⟩ := validName_spec hn
  have hsplit : splitChar '/' [] (s ++ '/' :: n) = splitChar '/' [] s ++ [n] := by
    rw [splitChar_append, splitChar_no_sep '/' [] n hs]; simp
  obtain ⟨l, hl⟩ := cleanElems_snoc ((s ++ '/' :: n).head? = some '/') n hn
    (splitChar '/' [] s) []
  unfold Clean
  simp only [hsplit]
  have hl' : cleanElems (decide ((s ++ '/' :: n).head? = some '/')) []
      (splitChar '/' [] s ++ [n]) = l ++ [n] := hl
  rw [hl']
  rcases joinWith_snoc ['/'] l n with h | ⟨q, h⟩
  · rw [h]
    by_cases hr : (s ++ '/' :: n).head? = some '/'
    · rw [if_pos hr]; exact ⟨['/'], rfl, Or.inr ⟨[], rfl⟩⟩
    · rw [if_neg hr, if_neg h0]; exact ⟨[], rfl, Or.inl rfl⟩
  · rw [h]
    by_cases hr : (s ++ '/' :: n).head? = some '/'
    · rw [if_pos hr]; exact ⟨'/' :: (q ++ ['/']), by simp, Or.inr ⟨'/' :: q, by simp⟩⟩
    · have hne : q ++ ['/'] ++ n ≠ [] := by simp
      rw [if_neg hr, if_neg hne]; exact ⟨q ++ ['/'], rfl, Or.inr ⟨q, rfl⟩⟩

theorem Clean_validName (n : Text) (hn : validName n = true) : Clean n = n := by
  obtain ⟨h0, hs, h1, h2⟩ := validName_spec hn
  have hhead : ¬ (n.head? = some '/') := by
    intro h
    cases n with
    | nil => cases h
    | cons c cs =>
      simp only [List.head?_cons, Option.some.injEq] at h
      exact hs (by simp [h])
  unfold Clean
  rw [splitChar_no_sep '/' [] n hs]
  simp [cleanElems, h0, h1, h2, joinWith, hhead]

/-- The file info of a directory entry carries the entry's name. -/
theorem basename_Join (path n : Text) (hn : validName n = true) :
    basename (Join path n) = n := by
  obtain ⟨h0, _, _, _⟩ := validName_spec hn
  unfold Join
  by_cases hp : path = []
  · simp only [hp, ne_eq, not_true_eq_false, if_false, h0, not_false_eq_true, if_true]
    rw [Clean_validName n hn]
    exact basename_snoc [] n hn (Or.inl rfl)
  · simp only [ne_eq, hp, not_false_eq_true, if_true]
    obtain ⟨pre, hc, hpre⟩ := Clean_snoc path n hn
    rw [hc]
    exact basename_snoc pre n hn hpre

/-! ## Cleaned paths and their depth -/

theorem Clean_eq_render (path : Text) :
    Clean path = renderPath (decide (path.head? = some '/')) (pathElems path) := by
  unfold Clean renderPath pathElems
  by_cases h : path.head? = some '/' <;> simp [h]

theorem splitChar_mem (d : Char) (s cur x : Text) (hx : x ∈ splitChar d cur s)
    (hcur : d ∉ cur) : d ∉ x := by
  induction s generalizing cur with
  | nil =>
    simp only [splitChar, List.mem_singleton] at hx
    rw [hx]
    simpa using hcur
  | cons c cs ih =>
    unfold splitChar at hx
    split at hx
    · rcases List.mem_cons.1 hx with h | h
      · rw [h]; simpa using hcur
      · exact ih [] h (by simp)
    · rename_i hc
      refine ih (c :: cur) hx ?_
      intro hm
      rcases List.mem_cons.1 hm with h | h
      · exact hc h.symm
      · exact hcur h

theorem cleanElems_snoc_eq (rooted : Bool) (n : Text) (hn : validName n = true)
    (xs stack : List Text) :
    cleanElems rooted stack (xs ++ [n]) = cleanElems rooted stack xs ++ [n] := by
  obtain ⟨h0, _, h1, h2⟩ := validName_spec hn
  induction xs generalizing stack with
  | nil => simp [cleanElems, h0, h1, h2]
  | cons e es ih =>
    simp only [List.cons_append]
    unfold cleanElems
    split
    · exact ih _
    · split
      · split
        · split
          · exact ih _
          · exact ih _
        · split
          · exact ih _
          · exact ih _
      · exact ih _

theorem cleanElems_names (rooted : Bool) (es stack : List Text)
    (h : es.all validName = true) : cleanElems rooted stack es = stack.reverse ++ es := by
  induction es generalizing stack with
  | nil => simp [cleanElems]
  | cons e rest ih =>
    simp only [List.all_cons, Bool.and_eq_true] at h
    obtain ⟨h0, _, h1, h2⟩ := validName_spec h.1
    unfold cleanElems
    simp only [h0, h1, h2, or_self, if_false]
    rw [ih _ h.2]
    simp

theorem cleanElems_wellFormed (rooted : Bool) (es stack : List Text)
    (hstack : ∀ x ∈ stack, x = ['.', '.']) (hroot : stack ≠ [] → rooted = false)
    (h : wellFormed rooted es = true) : cleanElems rooted stack es = stack.reverse ++ es := by
  induction es generalizing stack with
  | nil => simp [cleanElems]
  | cons e rest ih =>
    unfold wellFormed at h
    by_cases he : e = ['.', '.']
    · rw [if_pos he] at h
      simp only [Bool.and_eq_true, Bool.not_eq_true'] at h
      subst he
      have hr : rooted = false := h.1
      subst hr
      unfold cleanElems
      have hne1 : ¬ ((['.', '.'] : Text) = [] ∨ (['.', '.'] : Text) = ['.']) := by decide
      rw [if_neg hne1, if_pos rfl]
      cases stack with
      | nil =>
        simp only [Bool.false_eq_true, if_false]
        rw [ih [['.', '.']] (by simp) (fun _ => rfl) h.2]
        simp
      | cons top below =>
        have htop : top = ['.', '.'] := hstack top (List.mem_cons_self _ _)
        subst htop
        simp only [if_true]
        rw [ih _ (by
          intro x hx
          rcases List.mem_cons.1 hx with hx | hx
          · exact hx
          · exact hstack x hx)
          (fun _ => rfl) h.2]
        simp
    · rw [if_neg he] at h
      have hall : (e :: rest).all validName = true := by
        simpa [List.all_cons] using h
      exact cleanElems_names rooted (e :: rest) stack hall

theorem wellFormed_no_sep (rooted : Bool) (es : List Text) (h : wellFormed rooted es = true) :
    ∀ e ∈ es, e ≠ [] ∧ '/' ∉ e := by
  induction es with
  | nil => intro e he; cases he
  | cons x rest ih =>
    unfold wellFormed at h
    by_cases hx : x = ['.', '.']
    · rw [if_pos hx] at h
      simp only [Bool.and_eq_true] at h
      intro e he
      rcases List.mem_cons.1 he with rfl | he
      · rw [hx]; decide
      · exact ih h.2 e he
    · rw [if_neg hx] at h
      simp only [Bool.and_eq_true, List.all_eq_true] at h
      intro e he
      rcases List.mem_cons.1 he with rfl | he
      · exact ⟨(validName_spec h.1).1, (validName_spec h.1).2.1⟩
      · exact ⟨(validName_spec (h.2 e he)).1, (validName_spec (h.2 e he)).2.1⟩

theorem wellFormed_names (rooted : Bool) (es : List Text) (h : es.all validName = true) :
    wellFormed rooted es = true := by
  cases es with
  | nil => rfl
  | cons e rest =>
    simp only [List.all_cons, Bool.and_eq_true] at h
    unfold wellFormed
    have he : e ≠ ['.', '.'] := (validName_spec h.1).2.2.2
    rw [if_neg he]
    simp [h.1, h.2]

theorem wellFormed_snoc_name (rooted : Bool) (l : List Text) (e : Text)
    (h : wellFormed rooted l = true) (he : validName e = true) :
    wellFormed rooted (l ++ [e]) = true := by
  induction l with
  | nil => exact wellFormed_names rooted [e] (by simp [he])
  | cons x rest ih =>
    unfold wellFormed at h
    simp only [List.cons_append]
    unfold wellFormed
    by_cases hx : x = ['.', '.']
    · rw [if_pos hx] at h ⊢
      simp only [Bool.and_eq_true] at h ⊢
      exact ⟨h.1, ih h.2⟩
    · rw [if_neg hx] at h ⊢
      simp only [Bool.and_eq_true] at h ⊢
      refine ⟨h.1, ?_⟩
      simp only [List.all_append, List.all_cons, List.all_nil, Bool.and_true, Bool.and_eq_true]
      exact ⟨h.2, he⟩

theorem wellFormed_dots (l : List Text) (h : ∀ x ∈ l, x = ['.', '.']) :
    wellFormed false l = true := by
  induction l with
  | nil => rfl
  | cons x rest ih =>
    unfold wellFormed
    rw [if_pos (h x (List.mem_cons_self _ _))]
    simp [ih (fun y hy => h y (List.mem_cons_of_mem _ hy))]

theorem wellFormed_init (rooted : Bool) (l : List Text) (x : Text)
    (h : wellFormed rooted (l ++ [x]) = true) : wellFormed rooted l = true := by
  induction l with
  | nil => rfl
  | cons y rest ih =>
    simp only [List.cons_append] at h
    unfold wellFormed at h ⊢
    by_cases hy : y = ['.', '.']
    · rw [if_pos hy] at h ⊢
      simp only [Bool.and_eq_true] at h ⊢
      exact ⟨h.1, ih h.2⟩
    · rw [if_neg hy] at h ⊢
      simp only [Bool.and_eq_true, List.all_append] at h ⊢
      exact ⟨h.1, h.2.1⟩

theorem wellFormed_last_dots (rooted : Bool) (l : List Text)
    (h : wellFormed rooted (l ++ [['.', '.']]) = true) :
    (∀ x ∈ l, x = ['.', '.']) ∧ rooted = false := by
  induction l with
  | nil =>
    unfold wellFormed at h
    simp only [List.nil_append, if_true, Bool.and_eq_true, Bool.not_eq_true'] at h
    exact ⟨fun x hx => (by cases hx), h.1⟩
  | cons y rest ih =>
    simp only [List.cons_append] at h
    unfold wellFormed at h
    by_cases hy : y = ['.', '.']
    · rw [if_pos hy] at h
      simp only [Bool.and_eq_true, Bool.not_eq_true'] at h
      refine ⟨?_, h.1⟩
      intro x hx
      rcases List.mem_cons.1 hx with hx | hx
      · rw [hx]; exact hy
      · exact (ih h.2).1 x hx
    · rw [if_neg hy] at h
      simp only [Bool.and_eq_true, List.all_append, List.all_cons, List.all_nil,
        Bool.and_true] at h
      have := (validName_spec h.2.2).2.2.2
      exact absurd rfl this

theorem cleanElems_is_wellFormed (rooted : Bool) (xs stack : List Text)
    (hxs : ∀ x ∈ xs, '/' ∉ x) (h : wellFormed rooted stack.reverse = true) :
    wellFormed rooted (cleanElems rooted stack xs) = true := by
  induction xs generalizing stack with
  | nil => simpa [cleanElems] using h
  | cons e es ih =>
    have hes : ∀ x ∈ es, '/' ∉ x := fun x hx => hxs x (List.mem_cons_of_mem _ hx)
    have hsep : '/' ∉ e := hxs e (List.mem_cons_self _ _)
    unfold cleanElems
    split
    · exact ih stack hes h
    · rename_i h1
      split
      · rename_i h2
        cases stack with
        | nil =>
          dsimp only
          split
          · exact ih [] hes rfl
          · rename_i hr
            refine ih [e] hes ?_
            have : rooted = false := by simpa using hr
            rw [this, h2]
            rfl
        | cons top below =>
          dsimp only
          split
          · rename_i htop
            refine ih _ hes ?_
            have hrev : (top :: below).reverse = below.reverse ++ [['.', '.']] := by
              rw [htop]; simp
            rw [hrev] at h
            obtain ⟨hall, hr⟩ := wellFormed_last_dots rooted _ h
            rw [hr, h2]
            refine wellFormed_dots _ ?_
            intro x hx
            simp only [List.reverse_cons, List.mem_append, List.mem_reverse,
              List.mem_singleton] at hx
            rcases hx with (hx | hx) | hx
            · exact hall x (List.mem_reverse.2 hx)
            · rw [hx]; exact htop
            · exact hx
          · refine ih below hes ?_
            have hrev : (top :: below).reverse = below.reverse ++ [top] := by simp
            rw [hrev] at h
            exact wellFormed_init rooted _ _ h
      · rename_i h2
        refine ih (e :: stack) hes ?_
        have hv : validName e = true := by
          unfold validName
          simp only [decide_eq_true_eq]
          refine ⟨fun h0 => h1 (Or.inl h0), hsep, fun hd => h1 (Or.inr hd), h2⟩
        rw [List.reverse_cons]
        exact wellFormed_snoc_name rooted _ e h hv

theorem pathElems_wellFormed (path : Text) :
    wellFormed (decide (path.head? = some '/')) (pathElems path) = true :=
  cleanElems_is_wellFormed _ _ [] (fun x hx => splitChar_mem '/' path [] x hx (by simp)) rfl

theorem splitChar_joinWith (e : Text) (es : List Text) (cur : Text)
    (h : ∀ x ∈ e :: es, '/' ∉ x) :
    splitChar '/' cur (joinWith ['/'] (e :: es)) = (cur.reverse ++ e) :: es := by
  induction es generalizing e cur with
  | nil =>
    simp only [joinWith]
    exact splitChar_no_sep '/' cur e (h e (List.mem_cons_self _ _))
  | cons y ys ih =>
    have hy : ∀ x ∈ y :: ys, '/' ∉ x := fun x hx => h x (List.mem_cons_of_mem _ hx)
    have : joinWith ['/'] (e :: y :: ys) = e ++ '/' :: joinWith ['/'] (y :: ys) := by
      simp [joinWith]
    rw [this, splitChar_append, splitChar_no_sep '/' cur e (h e (List.mem_cons_self _ _)),
      ih y [] hy]
    simp

theorem joinWith_cons_head (e : Text) (es : List Text) (he : e ≠ []) :
    ∃ c rest, e = c :: rest ∧ ∃ tail, joinWith ['/'] (e :: es) = c :: tail := by
  cases e with
  | nil => exact absurd rfl he
  | cons c rest =>
    refine ⟨c, rest, rfl, ?_⟩
    cases es with
    | nil => exact ⟨rest, rfl⟩
    | cons y ys => exact ⟨rest ++ ['/'] ++ joinWith ['/'] (y :: ys), by simp [joinWith]⟩

/-- The text of a cleaned path has the rootedness and the elements it was made from. -/
theorem pathElems_render (rooted : Bool) (es : List Text) (h : wellFormed rooted es = true) :
    decide ((renderPath rooted es).head? = some '/') = rooted ∧
    pathElems (renderPath rooted es) = es := by
  have hsep := wellFormed_no_sep rooted es h
  cases rooted with
  | true =>
    have hhead : decide ((renderPath true es).head? = some '/') = true := by
      simp [renderPath]
    refine ⟨hhead, ?_⟩
    unfold pathElems
    rw [hhead]
    cases es with
    | nil => simp [renderPath, joinWith, splitChar, cleanElems]
    | cons e rest =>
      have hs : splitChar '/' [] (renderPath true (e :: rest)) = [] :: e :: rest := by
        simp only [renderPath, if_true]
        unfold splitChar
        rw [if_pos rfl, splitChar_joinWith e rest [] (fun x hx => (hsep x hx).2)]
        simp
      rw [hs]
      unfold cleanElems
      rw [if_pos (Or.inl rfl)]
      exact cleanElems_wellFormed true (e :: rest) [] (by simp) (by simp) h
  | false =>
    cases es with
    | nil => exact ⟨by decide, by decide⟩
    | cons e rest =>
      obtain ⟨c, crest, hc, tail, hj⟩ := joinWith_cons_head e rest (hsep e (List.mem_cons_self _ _)).1
      have hcs : c ≠ '/' := by
        intro hcc
        have := (hsep e (List.mem_cons_self _ _)).2
        rw [hc, hcc] at this
        exact this (List.mem_cons_self _ _)
      have hr : renderPath false (e :: rest) = joinWith ['/'] (e :: rest) := by
        simp [renderPath, hj]
      have hhead : decide ((renderPath false (e :: rest)).head? = some '/') = false := by
        rw [hr, hj]
        simp [hcs]
      refine ⟨hhead, ?_⟩
      unfold pathElems
      rw [hhead, hr, splitChar_joinWith e rest [] (fun x hx => (hsep x hx).2)]
      simp only [List.reverse_nil, List.nil_append]
      exact cleanElems_wellFormed false (e :: rest) [] (by simp) (by simp) h

/-- Cleaning keeps the elements of a path. -/
theorem pathElems_Clean (path : Text) : pathElems (Clean path) = pathElems path := by
  rw [Clean_eq_render]
  exact (pathElems_render _ _ (pathElems_wellFormed path)).2

theorem depth_Clean (path : Text) : depth (Clean path) = depth path := by
  unfold depth
  rw [pathElems_Clean]

theorem pathElems_Join (path n : Text) (hn : validName n = true) :
    pathElems (Join path n) = pathElems path ++ [n] := by
  obtain ⟨h0, hs, _, _⟩ := validName_spec hn
  unfold Join
  by_cases hp : path = []
  · subst hp
    simp only [ne_eq, not_true_eq_false, if_false, h0, not_false_eq_true, if_true]
    rw [Clean_validName n hn]
    have hr : renderPath false [n] = n := by simp [renderPath, joinWith, h0]
    have := (pathElems_render false [n] (wellFormed_names false [n] (by simp [hn]))).2
    rw [hr] at this
    rw [this]
    have hnil : pathElems ([] : Text) = [] := by decide
    rw [hnil]
    rfl
  · simp only [ne_eq, hp, not_false_eq_true, if_true]
    rw [pathElems_Clean]
    unfold pathElems
    have hhead : (path ++ '/' :: n).head? = path.head? := by
      cases path with
      | nil => exact absurd rfl hp
      | cons c cs => rfl
    rw [hhead, splitChar_append, splitChar_no_sep '/' [] n hs]
    simp only [List.reverse_nil, List.nil_append]
    exact cleanElems_snoc_eq _ n hn _ _

/-- A directory entry lies one level below its directory. -/
theorem depth_Join (path n : Text) (hn : validName n = true) :
    depth (Clean (Join path n)) = depth (Clean path) + 1 := by
  rw [depth_Clean, depth_Clean]
  unfold depth
  rw [pathElems_Join path n hn]
  simp

/-! ## Walks that change nothing -/

theorem mem_insertName (x y : Text) (l : List Text) : y ∈ insertName x l ↔ y = x ∨ y ∈ l := by
  induction l with
  | nil => simp [insertName]
  | cons z zs ih =>
    unfold insertName
    split
    · simp only [List.mem_cons, ih]
      tauto
    · simp only [List.mem_cons]

theorem mem_sortNames (y : Text) (l : List Text) : y ∈ sortNames l ↔ y ∈ l := by
  induction l with
  | nil => simp [sortNames]
  | cons x xs ih => simp [sortNames, mem_insertName, ih]

/-- A name that `readDirNames` lists is a valid name and the base name of a key. -/
theorem readDirNames_mem {fs : FS} {path : Text} {names : List Text}
    (h : readDirNames fs path = Except.ok names) {name : Text} (hn : name ∈ names) :
    validName name = true ∧ ∃ e ∈ fs, basename e.1 = name := by
  unfold readDirNames at h
  split at h
  · cases h
  · cases h
  · split at h
    · cases h
      rw [mem_sortNames] at hn
      unfold childNames at hn
      obtain ⟨e, he, rfl⟩ := List.mem_map.1 hn
      obtain ⟨hmem, hcond⟩ := List.mem_filter.1 he
      simp only [Bool.and_eq_true] at hcond
      exact ⟨hcond.2, e, hmem, rfl⟩
    · cases h

theorem lstat_name {fs : FS} {path : Text} {info : FileInfo}
    (h : lstat fs path = Except.ok info) : info.name = basename path := by
  unfold lstat at h
  split at h
  · cases h
  · cases h; rfl
  · cases h; rfl

theorem walkNames_quiet {α : Type} (walkFn : WalkFunc α)
    (walkDir : FS → Text → FileInfo → FS × List α × Signal) (fs : FS) (P : α → Prop)
    (Q : FileInfo → Prop) (hfn : Quiet walkFn fs P Q) (path : Text) (names : List Text)
    (hdir : ∀ name ∈ names, ∀ i, lstat fs (Join path name) = Except.ok i →
      (walkDir fs (Join path name) i).1 = fs ∧ ∀ r ∈ (walkDir fs (Join path name) i).2.1, P r) :
    (walkNames walkFn walkDir path names fs).1 = fs ∧
      ∀ r ∈ (walkNames walkFn walkDir path names fs).2.1, P r := by
  induction names with
  | nil => simp [walkNames]
  | cons name rest ih =>
    have ih' := ih (fun n hn => hdir n (List.mem_cons_of_mem _ hn))
    unfold walkNames
    simp only []
    cases hl : lstat fs (Join path name) with
    | error e =>
      have h := hfn (Join path name) none (some e) (by intro info hi; cases hi)
      simp only []
      split
      · exact h
      · rw [h.1]
        refine ⟨ih'.1, ?_⟩
        intro r hr
        rcases List.mem_append.1 hr with hr | hr
        · exact h.2 r hr
        · exact ih'.2 r hr
    | ok fileInfo =>
      have h := hdir name (List.mem_cons_self _ _) fileInfo hl
      simp only []
      split
      · exact h
      · rw [h.1]
        refine ⟨ih'.1, ?_⟩
        intro r hr
        rcases List.mem_append.1 hr with hr | hr
        · exact h.2 r hr
        · exact ih'.2 r hr

theorem walk_quiet {α : Type} (walkFn : WalkFunc α) (fs : FS) (P : α → Prop)
    (Q : FileInfo → Prop) (hfn : Quiet walkFn fs P Q)
    (hQ : ∀ path names name i, readDirNames fs path = Except.ok names → name ∈ names →
      lstat fs (Join path name) = Except.ok i → Q i)
    (fuel : Nat) (path : Text) (info : FileInfo) (hinfo : Q info) :
    (walk walkFn fuel fs path info).1 = fs ∧
      ∀ r ∈ (walk walkFn fuel fs path info).2.1, P r := by
  induction fuel generalizing path info with
  | zero => simp [walk]
  | succ fuel ih =>
    unfold walk
    have hself : ∀ e, (walkFn fs path (some info) e).1 = fs ∧
        ∀ r ∈ (walkFn fs path (some info) e).2.1, P r :=
      fun e => hfn path (some info) e (by intro i hi; cases hi; exact hinfo)
    split
    · exact hself none
    · cases hr : readDirNames fs path with
      | error e => exact hself (some e)
      | ok names =>
        simp only []
        split
        · exact hself none
        · have hn := walkNames_quiet walkFn (walk walkFn fuel) fs P Q hfn path names
            (fun name hname i hi => ih (Join path name) i (hQ path names name i hr hname hi))
          rw [(hself none).1]
          refine ⟨hn.1, ?_⟩
          intro r hr
          rcases List.mem_append.1 hr with hr | hr
          · exact (hself none).2 r hr
          · exact hn.2 r hr

theorem Walk_quiet {α : Type} (walkFn : WalkFunc α) (fs : FS) (P : α → Prop)
    (Q : FileInfo → Prop) (hfn : Quiet walkFn fs P Q)
    (hQ : ∀ path names name i, readDirNames fs path = Except.ok names → name ∈ names →
      lstat fs (Join path name) = Except.ok i → Q i)
    (fuel : Nat) (root : Text) (hroot : ∀ i, lstat fs root = Except.ok i → Q i) :
    (Walk walkFn fuel fs root).1 = fs ∧ ∀ r ∈ (Walk walkFn fuel fs root).2.1, P r := by
  have key : ∀ r : FS × List α × Signal, (r.1 = fs ∧ ∀ x ∈ r.2.1, P x) →
      ((match r.2.2 with
        | Signal.err e => (r.1, r.2.1, some e)
        | _ => (r.1, r.2.1, none) : FS × List α × Option Error).1 = fs ∧
       ∀ x ∈ (match r.2.2 with
        | Signal.err e => (r.1, r.2.1, some e)
        | _ => (r.1, r.2.1, none) : FS × List α × Option Error).2.1, P x) := by
    intro r hr
    cases r.2.2 <;> exact hr
  unfold Walk
  apply key
  cases hl : lstat fs root with
  | error e => exact hfn root none (some e) (by intro i hi; cases hi)
  | ok info => exact walk_quiet walkFn fs P Q hfn hQ fuel root info (hroot info hl)

theorem nameStep_dry (L : RegexpLib) {rules : List (Rule L)} (rt : Runtime L rules)
    (fs : FS) (path : Text) (info : FileInfo) :
    (nameStep L rt true fs path info).1 = fs ∧
      ∀ r ∈ (nameStep L rt true fs path info).2.1, dryTag <+: r.render := by
  unfold nameStep
  simp only []
  split
  · simp [Report.render, dryTag, List.prefix_iff_eq_append]
  · simp

theorem visit_dry (L : RegexpLib) {rules : List (Rule L)} (rt : Runtime L rules)
    (ignoreList : List L.Regexp) (fs : FS) (path : Text) (info : Option FileInfo)
    (err : Option Error) :
    (visit L rt ignoreList true fs path info err).1 = fs ∧
      ∀ r ∈ (visit L rt ignoreList true fs path info err).2.1, dryTag <+: r.render := by
  have hn := nameStep_dry L rt fs path
  unfold visit
  cases err with
  | some e => simp
  | none =>
    cases info with
    | none => simp
    | some info =>
      simp only []
      cases ignoreLoop L info.isDir path ignoreList with
      | some s => simp
      | none =>
        simp only []
        split
        · simp
        · cases readFile fs path with
          | error e => simp
          | ok c =>
            simp only []
            split
            · simp only [if_true]
              refine ⟨(hn info).1, ?_⟩
              intro r hr
              rcases List.mem_cons.1 hr with rfl | hr
              · simp [Report.render, dryTag, List.prefix_iff_eq_append]
              · exact (hn info).2 r hr
            · exact hn info

/-- C5: a dry run leaves the filesystem exactly as it was, and every line it prints
starts with `DRY RUN:`. -/
theorem C5_dry_run_frame (L : RegexpLib) {rules : List (Rule L)} (rt : Runtime L rules)
    (fuel : Nat) (fs : FS) (root : Text) (ignoreList : List L.Regexp) :
    (renameFilesAndContent L rt fuel fs root ignoreList true).1 = fs ∧
    ∀ r ∈ (renameFilesAndContent L rt fuel fs root ignoreList true).2.1,
      dryTag <+: r.render :=
  Walk_quiet _ fs _ (fun _ => True) (fun p i e _ => visit_dry L rt ignoreList fs p i e)
    (fun _ _ _ _ _ _ _ => trivial) fuel root (fun _ _ => trivial)

/-! ## Fuel: a walk that did not run out of fuel is the same with more fuel -/

theorem walkNames_fuel {α : Type} (fn : WalkFunc α) (n : Nat)
    (hw : ∀ fs p i, (walk fn n fs p i).2.2 ≠ Signal.err Error.outOfFuel →
      walk fn (n + 1) fs p i = walk fn n fs p i)
    (path : Text) (names : List Text) :
    ∀ fs, (walkNames fn (walk fn n) path names fs).2.2 ≠ Signal.err Error.outOfFuel →
      walkNames fn (walk fn (n + 1)) path names fs = walkNames fn (walk fn n) path names fs := by
  induction names with
  | nil => intro fs _; rfl
  | cons name rest ih =>
    intro fs h
    unfold walkNames at h ⊢
    dsimp only at h ⊢
    cases hl : lstat fs (Join path name) with
    | error e =>
      rw [hl] at h
      dsimp only at h ⊢
      split
      · rfl
      · rename_i hs
        rw [if_neg hs] at h
        rw [ih _ h]
    | ok fi =>
      rw [hl] at h
      dsimp only at h ⊢
      have hr : (walk fn n fs (Join path name) fi).2.2 ≠ Signal.err Error.outOfFuel := by
        intro hc
        rw [hc] at h
        simp at h
        exact h hc
      rw [hw fs (Join path name) fi hr]
      split
      · rfl
      · rename_i hs
        rw [if_neg hs] at h
        rw [ih _ h]

theorem walk_fuel {α : Type} (fn : WalkFunc α) (n : Nat) :
    ∀ fs p i, (walk fn n fs p i).2.2 ≠ Signal.err Error.outOfFuel →
      walk fn (n + 1) fs p i = walk fn n fs p i := by
  induction n with
  | zero => intro fs p i h; exact absurd rfl h
  | succ n ih =>
    intro fs p i h
    unfold walk at h
    conv_lhs => unfold walk
    conv_rhs => unfold walk
    dsimp only at h ⊢
    split
    · rfl
    · rename_i hd
      rw [if_neg hd] at h
      cases hr : readDirNames fs p with
      | error e => rfl
      | ok names =>
        rw [hr] at h
        dsimp only at h ⊢
        split
        · rfl
        · rename_i hs
          rw [if_neg hs] at h
          rw [walkNames_fuel fn n ih p names _ h]

/-- The fuel is no part of the result: a walk that ends without running out of fuel ends
the same way with any larger fuel. -/
theorem Walk_fuel {α : Type} (fn : WalkFunc α) (n : Nat) (fs : FS) (root : Text)
    (h : (Walk fn n fs root).2.2 ≠ some Error.outOfFuel) (k : Nat) :
    Walk fn (n + k) fs root = Walk fn n fs root := by
  induction k with
  | zero => rfl
  | succ k ih =>
    rw [← ih]
    rw [← ih] at h
    unfold Walk at h ⊢
    cases hl : lstat fs root with
    | error e => rfl
    | ok info =>
      rw [hl] at h
      dsimp only at h ⊢
      have hr : (walk fn (n + k) fs root info).2.2 ≠ Signal.err Error.outOfFuel := by
        intro hc
        rw [hc] at h
        exact h rfl
      rw [show n + (k + 1) = (n + k) + 1 from rfl, walk_fuel fn (n + k) fs root info hr]

theorem Walk_eq {α : Type} (fn : WalkFunc α) (fuel : Nat) (fs : FS) (root : Text) :
    Walk fn fuel fs root =
      ((match lstat fs root with
        | Except.error e => fn fs root none (some e)
        | Except.ok info => walk fn fuel fs root info).1,
       (match lstat fs root with
        | Except.error e => fn fs root none (some e)
        | Except.ok info => walk fn fuel fs root info).2.1,
       (match lstat fs root with
        | Except.error e => fn fs root none (some e)
        | Except.ok info => walk fn fuel fs root info).2.2.toError) := by
  unfold Walk
  dsimp only
  cases (match lstat fs root with
    | Except.error e => fn fs root none (some e)
    | Except.ok info => walk fn fuel fs root info).2.2 <;> rfl

/-! ## The loops of the callback -/

theorem loadRules_ok_eq (L : RegexpLib) (data : Text) (rules : List (Rule L))
    (h : loadRules L (Except.ok data) = Except.ok rules) :
    rules = (textLines data).filterMap (ruleOfLine L) := by
  by_cases hlong : ∃ raw ∈ rawLines data, maxScanTokenSize ≤ raw.length
  · obtain ⟨e, he⟩ := loadRules_long L data hlong
    rw [he] at h; cases h
  · have hshort : ∀ raw ∈ rawLines data, raw.length < maxScanTokenSize := by
      intro raw hr
      by_contra hc
      exact hlong ⟨raw, hr, Nat.le_of_not_lt hc⟩
    by_cases hbad : ∃ line ∈ textLines data, badLine L line = true
    · obtain ⟨e, he⟩ := loadRules_bad L data hshort hbad
      rw [he] at h; cases h
    · rw [loadRules_good L data hshort hbad] at h
      cases h; rfl

theorem rangeLoop_eq_fold (L : RegexpLib) (order : List (Rule L)) (text : Text) :
    rangeLoop L order text = declaredFold L order text := by
  induction order generalizing text with
  | nil => rfl
  | cons r rest ih =>
    obtain ⟨re, repl⟩ := r
    simp only [rangeLoop, declaredFold, List.foldl_cons]
    exact ih _

theorem perm_short {α : Type} {order rules : List α} (hp : order.Perm rules)
    (hlen : rules.length ≤ 1) : order = rules := by
  match rules, hlen with
  | [], _ => exact List.Perm.eq_nil hp
  | [r], _ => exact List.perm_singleton.1 hp

theorem unmatched_iff (L : RegexpLib) (rules : List (Rule L)) (text : Text) :
    unmatched L rules text = true ↔ ∀ r ∈ rules, L.matchString r.1 text = false := by
  simp [unmatched, List.all_eq_true]

theorem rangeLoop_fixed (L : RegexpLib) (hlaw : NoMatchFixed L) (order : List (Rule L))
    (text : Text) (h : ∀ r ∈ order, L.matchString r.1 text = false) :
    rangeLoop L order text = text := by
  induction order with
  | nil => rfl
  | cons r rest ih =>
    obtain ⟨re, repl⟩ := r
    simp only [rangeLoop]
    rw [hlaw re text repl (h (re, repl) (List.mem_cons_self _ _))]
    exact ih (fun x hx => h x (List.mem_cons_of_mem _ hx))

theorem rangeOrder_fixed (L : RegexpLib) (hlaw : NoMatchFixed L) {rules : List (Rule L)}
    (o : RangeOrder L rules) (text : Text) (h : unmatched L rules text = true) :
    rangeLoop L o.order text = text :=
  rangeLoop_fixed L hlaw o.order text
    (fun r hr => (unmatched_iff L rules text).1 h r (o.perm.mem_iff.1 hr))

theorem ignoreLoop_eq (L : RegexpLib) (isDir : Bool) (path : Text) (ignoreList : List L.Regexp) :
    ignoreLoop L isDir path ignoreList =
      if shouldIgnore L ignoreList path then
        some (if isDir then Signal.skipDir else Signal.nil)
      else none := by
  induction ignoreList with
  | nil => simp [ignoreLoop, shouldIgnore]
  | cons ig rest ih =>
    unfold ignoreLoop
    by_cases h : L.matchString ig path = true
    · cases isDir <;> simp [h, shouldIgnore]
    · simp only [h, if_false]
      rw [ih]
      simp [shouldIgnore, h]

theorem shouldIgnore_iff (L : RegexpLib) (ignoreList : List L.Regexp) (path : Text) :
    shouldIgnore L ignoreList path = true ↔ ∃ ig ∈ ignoreList, L.matchString ig path = true := by
  simp [shouldIgnore, List.any_eq_true]

theorem shouldIgnore_perm (L : RegexpLib) {l₁ l₂ : List L.Regexp} (hp : l₁.Perm l₂)
    (path : Text) : shouldIgnore L l₁ path = shouldIgnore L l₂ path := by
  have h : shouldIgnore L l₁ path = true ↔ shouldIgnore L l₂ path = true := by
    rw [shouldIgnore_iff, shouldIgnore_iff]
    constructor
    · rintro ⟨ig, hm, h⟩; exact ⟨ig, hp.mem_iff.1 hm, h⟩
    · rintro ⟨ig, hm, h⟩; exact ⟨ig, hp.mem_iff.2 hm, h⟩
  cases h1 : shouldIgnore L l₁ path <;> cases h2 : shouldIgnore L l₂ path <;> simp_all

theorem replaceLit_fixed (pat repl : Text) (s : Text) (h : containsLit pat s = false) :
    replaceLit pat repl 0 s = s := by
  induction s with
  | nil => rfl
  | cons c cs ih =>
    simp only [containsLit, Bool.or_eq_false_iff] at h
    simp [replaceLit, h.1, ih h.2]

theorem literalLib_noMatchFixed : NoMatchFixed literalLib := by
  intro re src repl h
  show literalReplaceAll re src repl = src
  have h' : containsLit re src = false := h
  unfold literalReplaceAll
  cases hre : re with
  | nil =>
    rw [hre] at h'
    cases src <;> simp [containsLit, List.isPrefixOf] at h'
  | cons p ps =>
    rw [hre] at h'
    simp only [List.isEmpty_cons, Bool.false_eq_true, if_false]
    exact replaceLit_fixed _ _ _ h'

/-! ## C1: the order of the rules -/

/-- C1 as stated fails: on the rule file `a=>b`, `b=>c` and the content `a`, the fold in
the order of the lines gives `c`, and a run whose `range` hands out the second rule
first writes `b`. -/
theorem C1_counterexample :
    loadRules literalLib (Except.ok chainFile) = Except.ok chainRules ∧
    declaredFold literalLib chainRules "a".toList = "c".toList ∧
    rangeLoop literalLib (reversedRuntime.content "f".toList).order "a".toList = "b".toList ∧
    (renameFilesAndContent literalLib reversedRuntime 5 chainTree ".".toList [] false).1 =
      [(".".toList, Node.dir 493), ("f".toList, Node.file "b".toList 420)] := by
  refine ⟨rfl, rfl, rfl, rfl⟩

/-- C1, amended: the text the walker computes equals the left fold, over the input, of
the rules of the rule file taken in the order in which the `range` over the map hands
them out, a permutation of the rules that need not follow the lines; when the file
gives at most one rule this is the fold in the order of the lines, so that two runs
compute the same text. -/
theorem C1_iteration_order (L : RegexpLib) (data : Text) (rules : List (Rule L))
    (hload : loadRules L (Except.ok data) = Except.ok rules) (rt : Runtime L rules)
    (path input : Text) :
    rules = (textLines data).filterMap (ruleOfLine L) ∧
    ((rt.content path).order.Perm rules ∧
      rangeLoop L (rt.content path).order input =
        declaredFold L (rt.content path).order input) ∧
    ((rt.name path).order.Perm rules ∧
      rangeLoop L (rt.name path).order input = declaredFold L (rt.name path).order input) ∧
    (rules.length ≤ 1 →
      rangeLoop L (rt.content path).order input = declaredFold L rules input ∧
      rangeLoop L (rt.name path).order input = declaredFold L rules input) := by
  refine ⟨loadRules_ok_eq L data rules hload,
    ⟨(rt.content path).perm, rangeLoop_eq_fold _ _ _⟩,
    ⟨(rt.name path).perm, rangeLoop_eq_fold _ _ _⟩, fun hlen => ?_⟩
  have hc := perm_short (rt.content path).perm hlen
  have hn := perm_short (rt.name path).perm hlen
  constructor
  · rw [hc]; exact rangeLoop_eq_fold _ _ _
  · rw [hn]; exact rangeLoop_eq_fold _ _ _

/-- Witness of C1: the rule file `foo=>bar` loads to one rule, and the walker turns
`foo123` into `bar123`. -/
theorem C1_iteration_order_witness :
    loadRules literalLib (Except.ok "foo=>bar".toList) = Except.ok fooBar ∧
    rangeLoop literalLib ((Runtime.insertion literalLib fooBar).content "foo.txt".toList).order
      "foo123".toList = declaredFold literalLib fooBar "foo123".toList :=
  ⟨rfl, ((C1_iteration_order literalLib "foo=>bar".toList fooBar rfl
    (Runtime.insertion literalLib fooBar) "foo.txt".toList "foo123".toList).2.2.2
      (by decide)).1⟩

/-! ## C2, C3: directories and ignored entries -/

theorem visit_dir (L : RegexpLib) {rules : List (Rule L)} (rt : Runtime L rules)
    (ignoreList : List L.Regexp) (dryRun : Bool) (fs : FS) (path : Text) (info : FileInfo)
    (hdir : info.isDir = true) (err : Option Error) :
    visit L rt ignoreList dryRun fs path (some info) err =
      (fs, [], match err with
        | some e => Signal.err e
        | none => if shouldIgnore L ignoreList path then Signal.skipDir else Signal.nil) := by
  unfold visit
  cases err with
  | some e => rfl
  | none =>
    simp only [ignoreLoop_eq, hdir, if_true]
    cases shouldIgnore L ignoreList path <;> simp

/-- C2 as stated fails: the directory `foo`, not ignored, has a name that the rule
`foo=>bar` changes, and the walker neither renames nor reports it, live or dry. -/
theorem C2_counterexample :
    rangeLoop literalLib fooBar "foo".toList = "bar".toList ∧
    renameFilesAndContent literalLib (Runtime.insertion literalLib fooBar) 5 dirTree
      ".".toList [] false = (dirTree, [], none) ∧
    renameFilesAndContent literalLib (Runtime.insertion literalLib fooBar) 5 dirTree
      ".".toList [] true = (dirTree, [], none) := by
  refine ⟨rfl, rfl, rfl⟩

/-- C2, amended: for every visited directory entry, whatever the rule set does to its base
name, the walker applies no name step: in either mode it renames nothing and reports
nothing; a directory that is not ignored and comes without an error gets `nil`, so that
the walk descends into it.  The name step belongs to non-directories only. -/
theorem C2_directories (L : RegexpLib) {rules : List (Rule L)} (rt : Runtime L rules)
    (ignoreList : List L.Regexp) (dryRun : Bool) (fs : FS) (path : Text) (info : FileInfo)
    (hdir : info.isDir = true) :
    (∀ err, (visit L rt ignoreList dryRun fs path (some info) err).1 = fs ∧
      (visit L rt ignoreList dryRun fs path (some info) err).2.1 = []) ∧
    (shouldIgnore L ignoreList path = false →
      visit L rt ignoreList dryRun fs path (some info) none = (fs, [], Signal.nil)) := by
  refine ⟨fun err => ?_, fun hig => ?_⟩
  · rw [visit_dir L rt ignoreList dryRun fs path info hdir err]
    exact ⟨rfl, rfl⟩
  · rw [visit_dir L rt ignoreList dryRun fs path info hdir none]
    simp [hig]

/-- Witness of C2: the directory `foo` under the rule `foo=>bar`. -/
theorem C2_directories_witness :
    visit literalLib (Runtime.insertion literalLib fooBar) [] false dirTree "foo".toList
      (some { name := "foo".toList, isDir := true, mode := 493 }) none =
      (dirTree, [], Signal.nil) :=
  (C2_directories literalLib (Runtime.insertion literalLib fooBar) [] false dirTree
    "foo".toList { name := "foo".toList, isDir := true, mode := 493 } rfl).2 rfl

theorem visit_ignored (L : RegexpLib) {rules : List (Rule L)} (rt : Runtime L rules)
    (ignoreList : List L.Regexp) (dryRun : Bool) (fs : FS) (path : Text) (info : FileInfo)
    (hig : shouldIgnore L ignoreList path = true) :
    visit L rt ignoreList dryRun fs path (some info) none =
      (fs, [], if info.isDir then Signal.skipDir else Signal.nil) := by
  unfold visit
  simp only [ignoreLoop_eq, hig, if_true]

/-- C3 as stated fails: the directory `vendor` matches the ignore list, but its owner
may not list it; the walk hands it over with that error, the callback returns the
error and not the skip signal, and the walk stops before the file `zzz`. -/
theorem C3_counterexample :
    shouldIgnore literalLib ["vendor".toList] "vendor".toList = true ∧
    visit literalLib (Runtime.insertion literalLib fooBar) ["vendor".toList] false lockedTree
      "vendor".toList (some { name := "vendor".toList, isDir := true, mode := 0 })
      (some (Error.permission "vendor".toList)) =
      (lockedTree, [], Signal.err (Error.permission "vendor".toList)) ∧
    renameFilesAndContent literalLib (Runtime.insertion literalLib fooBar) 5 lockedTree
      ".".toList ["vendor".toList] false =
      (lockedTree, [], some (Error.permission "vendor".toList)) := by
  refine ⟨rfl, rfl, rfl⟩

/-- C3, amended: for every visited entry that the walk hands over without an error and
whose path is matched by at least one pattern of the ignore list, whatever the order
of the list: the callback reads, writes, renames and reports nothing; for a directory
it returns the skip signal, the walk does not descend and goes on with the next name;
for a file it returns `nil` and the walk goes on with the next name.  An entry handed
over with an error gets that error returned, ignored or not, with nothing read,
written, renamed or reported, and the walk of a directory that cannot be listed stops
with the error. -/
theorem C3_ignored (L : RegexpLib) {rules : List (Rule L)} (rt : Runtime L rules)
    (ignoreList : List L.Regexp) (dryRun : Bool) (fs : FS) (path : Text) (info : FileInfo)
    (hig : ∃ ig ∈ ignoreList, L.matchString ig path = true) :
    (∀ other : List L.Regexp, other.Perm ignoreList →
      visit L rt other dryRun fs path (some info) none =
        (fs, [], if info.isDir then Signal.skipDir else Signal.nil)) ∧
    (∀ fuel, (info.isDir = true → ∃ names, readDirNames fs path = Except.ok names) →
      walk (visit L rt ignoreList dryRun) (fuel + 1) fs path info =
        (fs, [], if info.isDir then Signal.skipDir else Signal.nil)) ∧
    (∀ fuel parent name rest, path = Join parent name →
      lstat fs path = Except.ok info →
      (info.isDir = true → ∃ names, readDirNames fs path = Except.ok names) →
      walkNames (visit L rt ignoreList dryRun) (walk (visit L rt ignoreList dryRun) (fuel + 1))
          parent (name :: rest) fs =
        walkNames (visit L rt ignoreList dryRun) (walk (visit L rt ignoreList dryRun) (fuel + 1))
          parent rest fs) ∧
    (∀ e, (∀ handed, visit L rt ignoreList dryRun fs path handed (some e) =
        (fs, [], Signal.err e)) ∧
      (∀ fuel, info.isDir = true → readDirNames fs path = Except.error e →
        walk (visit L rt ignoreList dryRun) (fuel + 1) fs path info =
          (fs, [], Signal.err e))) := by
  have hs : shouldIgnore L ignoreList path = true := (shouldIgnore_iff L ignoreList path).2 hig
  have hv := visit_ignored L rt ignoreList dryRun fs path info hs
  have hw : ∀ fuel, (info.isDir = true → ∃ names, readDirNames fs path = Except.ok names) →
      walk (visit L rt ignoreList dryRun) (fuel + 1) fs path info =
        (fs, [], if info.isDir then Signal.skipDir else Signal.nil) := by
    intro fuel hread
    unfold walk
    cases hd : info.isDir with
    | false =>
      rw [hd] at hv
      simp only [Bool.not_false, if_true]
      exact hv
    | true =>
      obtain ⟨names, hn⟩ := hread hd
      rw [hd] at hv
      simp only [Bool.not_true, Bool.false_eq_true, if_false, hn, hv]
      simp
  refine ⟨fun other hp => ?_, hw, ?_, fun e => ⟨fun handed => rfl, fun fuel hd he => ?_⟩⟩
  · exact visit_ignored L rt other dryRun fs path info
      ((shouldIgnore_perm L hp path).trans hs)
  · intro fuel parent name rest hpath hl hread
    subst hpath
    have hwalk := hw fuel hread
    conv_lhs => unfold walkNames
    simp only [hl, hwalk]
    cases hd : info.isDir <;> simp
  · unfold walk
    simp only [hd, Bool.not_true, Bool.false_eq_true, if_false, he]
    rfl

/-- Witness of C3: the directory `vendor` of a tree, matched by the ignore pattern
`vendor`, is skipped, and the walk goes on to the file `zzz`. -/
theorem C3_ignored_witness :
    walk (visit literalLib (Runtime.insertion literalLib fooBar) ["vendor".toList] false) 5
      vendorTree "vendor".toList { name := "vendor".toList, isDir := true, mode := 493 } =
      (vendorTree, [], Signal.skipDir) :=
  (C3_ignored literalLib (Runtime.insertion literalLib fooBar) ["vendor".toList] false
    vendorTree "vendor".toList { name := "vendor".toList, isDir := true, mode := 493 }
    ⟨"vendor".toList, List.mem_cons_self _ _, rfl⟩).2.1 4 (fun _ => ⟨["foo".toList], rfl⟩)

/-! ## C10: converted trees -/

theorem find_mem {fs : FS} {key : Text} {node : Node} (h : fs.find key = some node) :
    (key, node) ∈ fs := by
  induction fs with
  | nil => cases h
  | cons e rest ih =>
    obtain ⟨k, n⟩ := e
    unfold FS.find at h
    split at h
    · rename_i hk
      cases h
      rw [hk]
      exact List.mem_cons_self _ _
    · exact List.mem_cons_of_mem _ (ih h)

theorem readFile_mem {fs : FS} {path content : Text}
    (h : readFile fs path = Except.ok content) :
    ∃ m, (Clean path, Node.file content m) ∈ fs := by
  unfold readFile at h
  split at h
  · cases h
  · cases h
  · rename_i c m hl
    split at h
    · cases h
      exact ⟨m, find_mem hl⟩
    · cases h

theorem nameStep_unmatched (L : RegexpLib) (hlaw : NoMatchFixed L) {rules : List (Rule L)}
    (rt : Runtime L rules) (dryRun : Bool) (fs : FS) (path : Text) (info : FileInfo)
    (hname : unmatched L rules info.name = true) :
    nameStep L rt dryRun fs path info = (fs, [], Signal.nil) := by
  unfold nameStep
  simp [rangeOrder_fixed L hlaw (rt.name path) info.name hname]

theorem visit_unmatched (L : RegexpLib) (hlaw : NoMatchFixed L) {rules : List (Rule L)}
    (rt : Runtime L rules) (ignoreList : List L.Regexp) (dryRun : Bool) (fs : FS)
    (path : Text) (info : Option FileInfo) (err : Option Error)
    (hcontent : ∀ c, readFile fs path = Except.ok c → unmatched L rules c = true)
    (hname : ∀ i, info = some i → unmatched L rules i.name = true) :
    (visit L rt ignoreList dryRun fs path info err).1 = fs ∧
      ∀ r ∈ (visit L rt ignoreList dryRun fs path info err).2.1, False := by
  unfold visit
  cases err with
  | some e => simp
  | none =>
    cases info with
    | none => simp
    | some info =>
      simp only []
      cases ignoreLoop L info.isDir path ignoreList with
      | some s => simp
      | none =>
        simp only []
        split
        · simp
        · cases hr : readFile fs path with
          | error e => simp
          | ok c =>
            simp only []
            have hc := rangeOrder_fixed L hlaw (rt.content path) c (hcontent c hr)
            rw [hc]
            simp only [ne_eq, not_true_eq_false, if_false]
            rw [nameStep_unmatched L hlaw rt dryRun fs path info (hname info rfl)]
            simp

/-- C10: once no pattern of the rules matches the text that a first application gave,
applying the rules again, in whatever order, gives back that text; and a walk over
a tree whose file contents and entry names are all texts that no pattern matches
changes nothing and reports nothing, live or dry. -/
theorem C10_fixed_point (L : RegexpLib) (hlaw : NoMatchFixed L) {rules : List (Rule L)}
    (rt : Runtime L rules) :
    (∀ (x : Text) (first second : RangeOrder L rules),
      unmatched L rules (rangeLoop L first.order x) = true →
      rangeLoop L second.order (rangeLoop L first.order x) = rangeLoop L first.order x) ∧
    (∀ (fuel : Nat) (fs : FS) (root : Text) (ignoreList : List L.Regexp) (dryRun : Bool),
      converted L rules fs = true →
      unmatched L rules (basename root) = true →
      (renameFilesAndContent L rt fuel fs root ignoreList dryRun).1 = fs ∧
      (renameFilesAndContent L rt fuel fs root ignoreList dryRun).2.1 = []) := by
  refine ⟨fun x first second h => rangeOrder_fixed L hlaw second _ h, ?_⟩
  intro fuel fs root ignoreList dryRun hconv hroot
  have htree : ∀ e ∈ fs, unmatched L rules (basename e.1) = true ∧
      ∀ c m, e.2 = Node.file c m → unmatched L rules c = true := by
    intro e he
    have h := List.all_eq_true.1 hconv e he
    simp only [Bool.and_eq_true] at h
    refine ⟨h.1, fun c m hc => ?_⟩
    rw [hc] at h
    exact h.2
  have hq : Quiet (visit L rt ignoreList dryRun) fs (fun _ => False)
      (fun i => unmatched L rules i.name = true) := by
    intro p i e hi
    refine visit_unmatched L hlaw rt ignoreList dryRun fs p i e ?_ hi
    intro c hc
    obtain ⟨m, hm⟩ := readFile_mem hc
    exact (htree _ hm).2 c m rfl
  have hQ : ∀ path names name i, readDirNames fs path = Except.ok names → name ∈ names →
      lstat fs (Join path name) = Except.ok i → unmatched L rules i.name = true := by
    intro path names name i hr hn hl
    obtain ⟨hv, e, he, hb⟩ := readDirNames_mem hr hn
    rw [lstat_name hl, basename_Join path name hv, ← hb]
    exact (htree e he).1
  have h := Walk_quiet (visit L rt ignoreList dryRun) fs (fun _ => False)
    (fun i => unmatched L rules i.name = true) hq hQ fuel root
    (fun i hi => by show unmatched L rules i.name = true; rw [lstat_name hi]; exact hroot)
  refine ⟨h.1, ?_⟩
  exact List.eq_nil_iff_forall_not_mem.2 (fun r hr => h.2 r hr)

/-- Witness of C10: `foo=>bar` applied to `foo123` gives `bar123`, which it leaves alone,
and a second walk over the tree of scenario A after its conversion does nothing. -/
theorem C10_fixed_point_witness :
    rangeLoop literalLib fooBar (rangeLoop literalLib fooBar "foo123".toList) =
      rangeLoop literalLib fooBar "foo123".toList ∧
    (renameFilesAndContent literalLib (Runtime.insertion literalLib fooBar) 5 sceneAdone
      ".".toList [] false).1 = sceneAdone ∧
    (renameFilesAndContent literalLib (Runtime.insertion literalLib fooBar) 5 sceneAdone
      ".".toList [] false).2.1 = [] :=
  ⟨(C10_fixed_point literalLib literalLib_noMatchFixed
      (Runtime.insertion literalLib fooBar)).1 "foo123".toList
      ⟨fooBar, List.Perm.refl _⟩ ⟨fooBar, List.Perm.refl _⟩ rfl,
   (C10_fixed_point literalLib literalLib_noMatchFixed
      (Runtime.insertion literalLib fooBar)).2 5 sceneAdone ".".toList [] false
      rfl rfl⟩

/-! ## The filesystem: proofs -/

theorem find_remove (fs : FS) (k k' : Text) :
    (fs.remove k).find k' = if k' = k then none else fs.find k' := by
  induction fs with
  | nil => simp [FS.remove, FS.find]
  | cons e rest ih =>
    obtain ⟨a, n⟩ := e
    unfold FS.remove
    by_cases ha : a = k
    · simp only [ha, if_true, ih]
      by_cases hk : k' = k
      · simp [hk]
      · have : ¬ k = k' := fun h => hk h.symm
        simp [hk, FS.find, this]
    · simp only [ha, if_false]
      unfold FS.find
      by_cases hak : a = k'
      · have : ¬ k' = k := fun h => ha (hak.trans h)
        simp [hak, this]
      · simp [hak, ih]

theorem find_put (fs : FS) (k k' : Text) (node : Node) :
    (fs.put k node).find k' = if k' = k then some node else fs.find k' := by
  induction fs with
  | nil =>
    by_cases hk : k' = k
    · simp [FS.put, FS.find, hk]
    · have : ¬ k = k' := fun h => hk h.symm
      simp [FS.put, FS.find, hk, this]
  | cons e rest ih =>
    obtain ⟨a, n⟩ := e
    unfold FS.put
    by_cases ha : a = k
    · simp only [ha, if_true]
      by_cases hk : k' = k
      · simp [FS.find, hk]
      · have : ¬ k = k' := fun h => hk h.symm
        simp [FS.find, hk, this, find_remove]
    · simp only [ha, if_false]
      unfold FS.find
      by_cases hak : a = k'
      · have : ¬ k' = k := fun h => ha (hak.trans h)
        simp [hak, this]
      · simp [hak, ih]

theorem readFile_ok {fs : FS} {path c : Text} (h : readFile fs path = Except.ok c) :
    ∃ m, fs.lookup path = some (Node.file c m) ∧ ownerReads m = true := by
  unfold readFile at h
  split at h
  · cases h
  · cases h
  · rename_i c' m hl
    split at h
    · rename_i hr
      cases h
      exact ⟨m, hl, hr⟩
    · cases h

theorem readFile_of_lookup {fs : FS} {path c : Text} {m : FileMode}
    (hl : fs.lookup path = some (Node.file c m)) (hr : ownerReads m = true) :
    readFile fs path = Except.ok c := by
  unfold readFile
  rw [hl]
  simp [hr]

theorem writeFile_existing {fs fs1 : FS} {path c d : Text} {m perm : FileMode}
    (hl : fs.lookup path = some (Node.file c m))
    (h : writeFile fs path d perm = Except.ok fs1) :
    fs1 = fs.put (Clean path) (Node.file d m) := by
  unfold writeFile at h
  rw [hl] at h
  simp only [] at h
  split at h
  · cases h; rfl
  · cases h

theorem rename_file {fs fs' : FS} {path dest c : Text} {m : FileMode}
    (hl : fs.lookup path = some (Node.file c m))
    (h : rename fs path dest = Except.ok fs') :
    (Clean path = Clean dest ∧ fs' = fs) ∨
    (Clean path ≠ Clean dest ∧
      fs' = (fs.remove (Clean path)).put (Clean dest) (Node.file c m)) := by
  unfold rename at h
  rw [hl] at h
  simp only [] at h
  split at h
  · rename_i heq
    cases h
    exact Or.inl ⟨heq, rfl⟩
  · rename_i hne
    split at h
    · split at h
      · cases h
      · cases h
        exact Or.inr ⟨hne, rfl⟩
    · cases h

theorem lookup_put_self (fs : FS) (path : Text) (node : Node) :
    (fs.put (Clean path) node).lookup path = some node := by
  unfold FS.lookup
  rw [find_put]
  simp

theorem lookup_after_write {fs fs1 : FS} {path c d : Text} {m perm : FileMode}
    (hl : fs.lookup path = some (Node.file c m))
    (h : writeFile fs path d perm = Except.ok fs1) :
    fs1.lookup path = some (Node.file d m) ∧
    ∀ q, Clean q ≠ Clean path → fs1.lookup q = fs.lookup q := by
  rw [writeFile_existing hl h]
  refine ⟨lookup_put_self _ _ _, fun q hq => ?_⟩
  unfold FS.lookup
  rw [find_put]
  simp [hq]

theorem lookup_after_rename {fs fs' : FS} {path dest c : Text} {m : FileMode}
    (hl : fs.lookup path = some (Node.file c m))
    (h : rename fs path dest = Except.ok fs') :
    fs'.lookup dest = some (Node.file c m) ∧
    ∀ q, Clean q ≠ Clean path → Clean q ≠ Clean dest → fs'.lookup q = fs.lookup q := by
  rcases rename_file hl h with ⟨heq, rfl⟩ | ⟨hne, rfl⟩
  · refine ⟨?_, fun q _ _ => rfl⟩
    unfold FS.lookup at hl ⊢
    rw [← heq]; exact hl
  · refine ⟨lookup_put_self _ _ _, fun q hq hq' => ?_⟩
    unfold FS.lookup
    rw [find_put, find_remove]
    simp [hq, hq']

/-! ## The visit of a file -/

theorem nameStep_dry_eq (L : RegexpLib) {rules : List (Rule L)} (rt : Runtime L rules)
    (fs : FS) (path : Text) (info : FileInfo) :
    nameStep L rt true fs path info =
      (fs, (if newName L rt path info ≠ info.name then
          [Report.renamed true path (newPath L rt path info)] else []), Signal.nil) := by
  unfold nameStep newPath newName
  simp only []
  split <;> simp

theorem nameStep_live_eq (L : RegexpLib) {rules : List (Rule L)} (rt : Runtime L rules)
    (fs : FS) (path : Text) (info : FileInfo) :
    nameStep L rt false fs path info =
      if newName L rt path info ≠ info.name then
        match rename fs path (newPath L rt path info) with
        | Except.error e => (fs, [], Signal.err e)
        | Except.ok fs1 =>
          (fs1, [Report.renamed false path (newPath L rt path info)], Signal.nil)
      else (fs, [], Signal.nil) := by
  unfold nameStep newPath newName
  simp only []
  split <;> simp

theorem visit_file_dry (L : RegexpLib) {rules : List (Rule L)} (rt : Runtime L rules)
    (ignoreList : List L.Regexp) (fs : FS) (path : Text) (info : FileInfo)
    (hfile : info.isDir = false) (hig : shouldIgnore L ignoreList path = false)
    (c : Text) (hread : readFile fs path = Except.ok c) :
    visit L rt ignoreList true fs path (some info) none =
      (fs, (if c ≠ newContent L rt path c then [Report.substitutions true path] else []) ++
        (if newName L rt path info ≠ info.name then
          [Report.renamed true path (newPath L rt path info)] else []), Signal.nil) := by
  unfold visit
  simp only [ignoreLoop_eq, hig, hfile, hread, nameStep_dry_eq, newContent]
  by_cases hc : c = rangeLoop L (rt.content path).order c
  · simp [← hc]
  · simp [hc]

theorem visit_file_live (L : RegexpLib) {rules : List (Rule L)} (rt : Runtime L rules)
    (ignoreList : List L.Regexp) (fs : FS) (path : Text) (info : FileInfo)
    (hfile : info.isDir = false) (hig : shouldIgnore L ignoreList path = false)
    (c : Text) (hread : readFile fs path = Except.ok c) :
    visit L rt ignoreList false fs path (some info) none =
      if c ≠ newContent L rt path c then
        match writeFile fs path (newContent L rt path c) info.mode with
        | Except.error e => (fs, [], Signal.err e)
        | Except.ok fs1 =>
          ((nameStep L rt false fs1 path info).1,
            Report.substitutions false path :: (nameStep L rt false fs1 path info).2.1,
            (nameStep L rt false fs1 path info).2.2)
      else nameStep L rt false fs path info := by
  unfold visit
  simp only [ignoreLoop_eq, hig, hfile, hread, newContent]
  by_cases hc : c = rangeLoop L (rt.content path).order c
  · simp [← hc]
  · simp [hc]

theorem visit_read_error (L : RegexpLib) {rules : List (Rule L)} (rt : Runtime L rules)
    (ignoreList : List L.Regexp) (dryRun : Bool) (fs : FS) (path : Text) (info : FileInfo)
    (hfile : info.isDir = false) (hig : shouldIgnore L ignoreList path = false)
    (e : Error) (hread : readFile fs path = Except.error e) :
    visit L rt ignoreList dryRun fs path (some info) none = (fs, [], Signal.err e) := by
  unfold visit
  simp only [ignoreLoop_eq, hig, hfile, hread]
  simp

theorem nameStep_live_ok (L : RegexpLib) {rules : List (Rule L)} (rt : Runtime L rules)
    (fs1 fs' : FS) (path : Text) (info : FileInfo) (out : List Report)
    (h : nameStep L rt false fs1 path info = (fs', out, Signal.nil)) :
    (if newName L rt path info ≠ info.name then
        rename fs1 path (newPath L rt path info) = Except.ok fs' else fs' = fs1) ∧
    out = (if newName L rt path info ≠ info.name then
        [Report.renamed false path (newPath L rt path info)] else []) := by
  rw [nameStep_live_eq] at h
  by_cases hn : newName L rt path info ≠ info.name
  · simp only [if_pos hn] at h ⊢
    cases hr : rename fs1 path (newPath L rt path info) with
    | error e => rw [hr] at h; cases h
    | ok fs2 =>
      rw [hr] at h
      cases h
      exact ⟨rfl, rfl⟩
  · simp only [if_neg hn] at h ⊢
    cases h
    exact ⟨rfl, rfl⟩

/-- What a live visit of a non-ignored readable file has done when it returns `nil`. -/
theorem visit_live_ok (L : RegexpLib) {rules : List (Rule L)} (rt : Runtime L rules)
    (ignoreList : List L.Regexp) (fs : FS) (path : Text) (info : FileInfo)
    (hfile : info.isDir = false) (hig : shouldIgnore L ignoreList path = false)
    (c : Text) (hread : readFile fs path = Except.ok c) (fs' : FS) (out : List Report)
    (hlive : visit L rt ignoreList false fs path (some info) none = (fs', out, Signal.nil)) :
    out = (if c ≠ newContent L rt path c then [Report.substitutions false path] else []) ++
        (if newName L rt path info ≠ info.name then
          [Report.renamed false path (newPath L rt path info)] else []) ∧
    ∃ fs1,
      (if c ≠ newContent L rt path c then
        writeFile fs path (newContent L rt path c) info.mode = Except.ok fs1 else fs1 = fs) ∧
      (if newName L rt path info ≠ info.name then
        rename fs1 path (newPath L rt path info) = Except.ok fs' else fs' = fs1) := by
  rw [visit_file_live L rt ignoreList fs path info hfile hig c hread] at hlive
  by_cases hc : c ≠ newContent L rt path c
  · simp only [if_pos hc] at hlive ⊢
    cases hw : writeFile fs path (newContent L rt path c) info.mode with
    | error e => rw [hw] at hlive; cases hlive
    | ok fs1 =>
      rw [hw] at hlive
      simp only [Prod.mk.injEq] at hlive
      obtain ⟨h1, h2, h3⟩ := hlive
      have hn := nameStep_live_ok L rt fs1 fs' path info
        (nameStep L rt false fs1 path info).2.1 (by rw [← h1, ← h3])
      refine ⟨?_, fs1, rfl, hn.1⟩
      rw [← h2, hn.2]
      rfl
  · simp only [if_neg hc] at hlive ⊢
    have hn := nameStep_live_ok L rt fs fs' path info out hlive
    exact ⟨by simpa using hn.2, fs, rfl, hn.1⟩

/-! ## C8: a change is a difference of the final text -/

/-- C8 as stated fails: the file `foo.txt`, not ignored, has a name that the rule
`foo=>bar` changes, but its owner may not write it; the live run stops at the write
and neither renames the file nor reports a rename, which the dry run announces. -/
theorem C8_counterexample :
    newName literalLib (Runtime.insertion literalLib fooBar) "foo.txt".toList
      { name := "foo.txt".toList, isDir := false, mode := 292 } = "bar.txt".toList ∧
    renameFilesAndContent literalLib (Runtime.insertion literalLib fooBar) 5 readOnlyTree
      ".".toList [] false = (readOnlyTree, [], some (Error.permission "foo.txt".toList)) ∧
    renameFilesAndContent literalLib (Runtime.insertion literalLib fooBar) 5 readOnlyTree
      ".".toList [] true =
      (readOnlyTree, [Report.substitutions true "foo.txt".toList,
        Report.renamed true "foo.txt".toList "bar.txt".toList], none) := by
  refine ⟨rfl, rfl, rfl⟩

/-- C8, amended: for every non-ignored file whose content is read.  A dry run reports a
content change exactly when the final output of the rules differs from the original
bytes and a rename exactly when the final name differs from the original name.  A
live run attempts the write exactly when the content differs and, unless that write
failed, the rename exactly when the name differs; it reports what succeeded: a failed
write ends the visit with the error, nothing reported and the file not renamed, a
failed rename ends it after the write.  When both final texts equal the originals,
whatever matched on the way, nothing is written, renamed or reported. -/
theorem C8_change_iff (L : RegexpLib) {rules : List (Rule L)} (rt : Runtime L rules)
    (ignoreList : List L.Regexp) (fs : FS) (path : Text) (info : FileInfo)
    (hfile : info.isDir = false) (hig : shouldIgnore L ignoreList path = false)
    (c : Text) (hread : readFile fs path = Except.ok c) :
    visit L rt ignoreList true fs path (some info) none =
      (fs, (if c ≠ newContent L rt path c then [Report.substitutions true path] else []) ++
        (if newName L rt path info ≠ info.name then
          [Report.renamed true path (newPath L rt path info)] else []), Signal.nil) ∧
    visit L rt ignoreList false fs path (some info) none =
      (match (if c ≠ newContent L rt path c then
          writeFile fs path (newContent L rt path c) info.mode else Except.ok fs) with
       | Except.error e => (fs, [], Signal.err e)
       | Except.ok fs1 =>
         match (if newName L rt path info ≠ info.name then
            rename fs1 path (newPath L rt path info) else Except.ok fs1) with
         | Except.error e =>
           (fs1, (if c ≠ newContent L rt path c then [Report.substitutions false path]
             else []), Signal.err e)
         | Except.ok fs2 =>
           (fs2, (if c ≠ newContent L rt path c then [Report.substitutions false path]
             else []) ++
            (if newName L rt path info ≠ info.name then
              [Report.renamed false path (newPath L rt path info)] else []), Signal.nil)) ∧
    (∀ fs' out,
      visit L rt ignoreList false fs path (some info) none = (fs', out, Signal.nil) →
      out = (if c ≠ newContent L rt path c then [Report.substitutions false path] else []) ++
        (if newName L rt path info ≠ info.name then
          [Report.renamed false path (newPath L rt path info)] else []) ∧
      ∃ fs1,
        (if c ≠ newContent L rt path c then
          writeFile fs path (newContent L rt path c) info.mode = Except.ok fs1
          else fs1 = fs) ∧
        (if newName L rt path info ≠ info.name then
          rename fs1 path (newPath L rt path info) = Except.ok fs' else fs' = fs1)) ∧
    (c ≠ newContent L rt path c → ∀ e,
      writeFile fs path (newContent L rt path c) info.mode = Except.error e →
      visit L rt ignoreList false fs path (some info) none = (fs, [], Signal.err e)) ∧
    (c = newContent L rt path c → newName L rt path info = info.name →
      ∀ dryRun, visit L rt ignoreList dryRun fs path (some info) none = (fs, [], Signal.nil)) := by
  have hlive := visit_file_live L rt ignoreList fs path info hfile hig c hread
  refine ⟨visit_file_dry L rt ignoreList fs path info hfile hig c hread, ?_,
    fun fs' out h => visit_live_ok L rt ignoreList fs path info hfile hig c hread fs' out h,
    fun hc e hw => ?_, fun hc hn dryRun => ?_⟩
  · rw [hlive]
    by_cases hc : c ≠ newContent L rt path c
    · simp only [if_pos hc]
      cases writeFile fs path (newContent L rt path c) info.mode with
      | error e => rfl
      | ok fs1 =>
        dsimp only
        rw [nameStep_live_eq]
        by_cases hn : newName L rt path info ≠ info.name
        · simp only [if_pos hn]
          cases rename fs1 path (newPath L rt path info) <;> rfl
        · simp only [if_neg hn]
          rfl
    · simp only [if_neg hc]
      rw [nameStep_live_eq]
      by_cases hn : newName L rt path info ≠ info.name
      · simp only [if_pos hn]
        cases rename fs path (newPath L rt path info) <;> rfl
      · simp only [if_neg hn]
        rfl
  · rw [hlive, if_pos hc, hw]
  · cases dryRun with
    | true =>
      rw [visit_file_dry L rt ignoreList fs path info hfile hig c hread]
      simp [← hc, hn]
    | false =>
      rw [hlive, nameStep_live_eq]
      simp [← hc, hn]

/-- Witness of C8: the file `foo.txt` of scenario A under the rule `foo=>bar`: the dry
run announces the change of content and the rename, and the live run does both. -/
theorem C8_change_iff_witness :
    visit literalLib (Runtime.insertion literalLib fooBar) [] true sceneA "foo.txt".toList
      (some { name := "foo.txt".toList, isDir := false, mode := 420 }) none =
      (sceneA, [Report.substitutions true "foo.txt".toList,
        Report.renamed true "foo.txt".toList "bar.txt".toList], Signal.nil) ∧
    visit literalLib (Runtime.insertion literalLib fooBar) [] false sceneA "foo.txt".toList
      (some { name := "foo.txt".toList, isDir := false, mode := 420 }) none =
      (sceneAdone, [Report.substitutions false "foo.txt".toList,
        Report.renamed false "foo.txt".toList "bar.txt".toList], Signal.nil) :=
  ⟨(C8_change_iff literalLib (Runtime.insertion literalLib fooBar) [] sceneA "foo.txt".toList
    { name := "foo.txt".toList, isDir := false, mode := 420 } rfl rfl "foo123".toList rfl).1,
   (C8_change_iff literalLib (Runtime.insertion literalLib fooBar) [] sceneA "foo.txt".toList
    { name := "foo.txt".toList, isDir := false, mode := 420 } rfl rfl "foo123".toList
    rfl).2.1.trans rfl⟩

/-! ## C6: where a visited file ends up -/

/-- C6 as stated fails: under the rules `a=>b`, `b=>c` the file `a` holding `a` is, by the
declared order, to end as `c` holding `c`; a live visit whose loops range over the
second rule first meets no error and leaves the file at `b` holding `b`, and nothing
at `c`. -/
theorem C6_counterexample :
    visit literalLib reversedRuntime [] false chainNamed "a".toList
      (some { name := "a".toList, isDir := false, mode := 420 }) none =
      ([(".".toList, Node.dir 493), ("b".toList, Node.file "b".toList 420)],
        [Report.substitutions false "a".toList, Report.renamed false "a".toList "b".toList],
        Signal.nil) ∧
    Join (Dir "a".toList) (declaredFold literalLib chainRules "a".toList) = "c".toList ∧
    declaredFold literalLib chainRules "a".toList = "c".toList ∧
    readFile [(".".toList, Node.dir 493), ("b".toList, Node.file "b".toList 420)]
      "c".toList = Except.error (Error.notExist "c".toList) ∧
    readFile [(".".toList, Node.dir 493), ("b".toList, Node.file "b".toList 420)]
      "b".toList = Except.ok "b".toList := by
  refine ⟨rfl, rfl, rfl, rfl, rfl⟩

/-- C6, amended: a live visit of a non-ignored file that meets no I/O error leaves the
file at its parent directory joined with the rewritten name, holding the rewritten
content; the content is written at the original path first, the rename comes after.
The rewritten texts are the folds of the rules in the orders in which the two loops
of the visit range over the rule map; they are the folds in the declared order when
the loops iterate in that order, and when there is at most one rule. -/
theorem C6_file_visit (L : RegexpLib) {rules : List (Rule L)} (rt : Runtime L rules)
    (ignoreList : List L.Regexp) (fs : FS) (path : Text) (info : FileInfo)
    (hfile : info.isDir = false) (hig : shouldIgnore L ignoreList path = false)
    (c : Text) (hread : readFile fs path = Except.ok c)
    (hbase : Clean (Join (Dir path) info.name) = Clean path)
    (fs' : FS) (out : List Report)
    (hlive : visit L rt ignoreList false fs path (some info) none = (fs', out, Signal.nil)) :
    readFile fs' (newPath L rt path info) = Except.ok (newContent L rt path c) ∧
    newPath L rt path info =
      Join (Dir path) (declaredFold L (rt.name path).order info.name) ∧
    newContent L rt path c = declaredFold L (rt.content path).order c ∧
    ((rt.content path).order = rules → (rt.name path).order = rules →
      readFile fs' (Join (Dir path) (declaredFold L rules info.name)) =
        Except.ok (declaredFold L rules c)) ∧
    (rules.length ≤ 1 →
      readFile fs' (Join (Dir path) (declaredFold L rules info.name)) =
        Except.ok (declaredFold L rules c)) ∧
    ∃ fs1, readFile fs1 path = Except.ok (newContent L rt path c) ∧
      (if c ≠ newContent L rt path c then
        writeFile fs path (newContent L rt path c) info.mode = Except.ok fs1 else fs1 = fs) ∧
      (if newName L rt path info ≠ info.name then
        rename fs1 path (newPath L rt path info) = Except.ok fs' else fs' = fs1) := by
  suffices hmain : readFile fs' (newPath L rt path info) = Except.ok (newContent L rt path c) ∧
      ∃ fs1, readFile fs1 path = Except.ok (newContent L rt path c) ∧
        (if c ≠ newContent L rt path c then
          writeFile fs path (newContent L rt path c) info.mode = Except.ok fs1
          else fs1 = fs) ∧
        (if newName L rt path info ≠ info.name then
          rename fs1 path (newPath L rt path info) = Except.ok fs' else fs' = fs1) by
    have hdecl : (rt.content path).order = rules → (rt.name path).order = rules →
        readFile fs' (Join (Dir path) (declaredFold L rules info.name)) =
          Except.ok (declaredFold L rules c) := by
      intro hco hno
      have h := hmain.1
      unfold newPath newName newContent at h
      rw [hco, hno, rangeLoop_eq_fold, rangeLoop_eq_fold] at h
      exact h
    refine ⟨hmain.1, ?_, ?_, hdecl, fun hlen => ?_, hmain.2⟩
    · unfold newPath newName
      rw [rangeLoop_eq_fold]
    · unfold newContent
      rw [rangeLoop_eq_fold]
    · exact hdecl (perm_short (rt.content path).perm hlen)
        (perm_short (rt.name path).perm hlen)
  obtain ⟨_, fs1, hw, hr⟩ :=
    visit_live_ok L rt ignoreList fs path info hfile hig c hread fs' out hlive
  obtain ⟨m, hl, hm⟩ := readFile_ok hread
  have h1 : fs1.lookup path = some (Node.file (newContent L rt path c) m) := by
    by_cases hc : c ≠ newContent L rt path c
    · rw [if_pos hc] at hw
      exact (lookup_after_write hl hw).1
    · rw [if_neg hc] at hw
      rw [hw, ← not_not.1 hc]
      exact hl
  have hread1 : readFile fs1 path = Except.ok (newContent L rt path c) :=
    readFile_of_lookup h1 hm
  refine ⟨?_, fs1, hread1, hw, hr⟩
  by_cases hn : newName L rt path info ≠ info.name
  · rw [if_pos hn] at hr
    exact readFile_of_lookup (lookup_after_rename h1 hr).1 hm
  · rw [if_neg hn] at hr
    have hnp : fs1.lookup (newPath L rt path info) = fs1.lookup path := by
      unfold FS.lookup newPath
      rw [not_not.1 hn, hbase]
    rw [hr]
    exact readFile_of_lookup (hnp.trans h1) hm

/-- Witness of C6, scenario A: under the rule `foo=>bar` the file `foo.txt` holding
`foo123` ends as `bar.txt` holding `bar123`. -/
theorem C6_file_visit_witness :
    readFile sceneAdone "bar.txt".toList = Except.ok "bar123".toList :=
  (C6_file_visit literalLib (Runtime.insertion literalLib fooBar) [] sceneA "foo.txt".toList
    { name := "foo.txt".toList, isDir := false, mode := 420 } rfl rfl "foo123".toList rfl rfl
    sceneAdone [Report.substitutions false "foo.txt".toList,
      Report.renamed false "foo.txt".toList "bar.txt".toList] rfl).1

/-! ## C9: the mode of a rewritten file, and the other files -/

/-- C9 as stated fails: under the rule `a=>b` the visit of the file `a` rewrites its
content and renames it to `b`; the other file `b`, which held `zzz` with mode `0600`,
is replaced: the path `b` now holds `b` with mode `0644`. -/
theorem C9_counterexample :
    overwriteTree.lookup "b".toList = some (Node.file "zzz".toList 384) ∧
    visit literalLib (Runtime.insertion literalLib aToB) [] false overwriteTree "a".toList
      (some { name := "a".toList, isDir := false, mode := 420 }) none =
      ([(".".toList, Node.dir 493), ("b".toList, Node.file "b".toList 420)],
        [Report.substitutions false "a".toList, Report.renamed false "a".toList "b".toList],
        Signal.nil) := by
  refine ⟨rfl, rfl⟩

/-- C9, amended: when the walker rewrites the content of a file in live mode, the file
keeps its permission mode, at its path after the write and at its new path after the
rename; every path other than the path of the file and the destination of its rename
names the same object as before the visit.  What was at the destination is replaced. -/
theorem C9_mode_and_frame (L : RegexpLib) {rules : List (Rule L)} (rt : Runtime L rules)
    (ignoreList : List L.Regexp) (fs : FS) (path : Text) (info : FileInfo)
    (hfile : info.isDir = false) (hig : shouldIgnore L ignoreList path = false)
    (c : Text) (hread : readFile fs path = Except.ok c)
    (hchange : c ≠ newContent L rt path c) (fs1 : FS)
    (hwrite : writeFile fs path (newContent L rt path c) info.mode = Except.ok fs1) :
    ∃ m, fs.lookup path = some (Node.file c m) ∧
      fs1.lookup path = some (Node.file (newContent L rt path c) m) ∧
      ((visit L rt ignoreList false fs path (some info) none).2.2 = Signal.nil →
        (visit L rt ignoreList false fs path (some info) none).1.lookup
          (if newName L rt path info ≠ info.name then newPath L rt path info else path) =
          some (Node.file (newContent L rt path c) m)) ∧
      ((visit L rt ignoreList false fs path (some info) none).2.2 ≠ Signal.nil →
        (visit L rt ignoreList false fs path (some info) none).1 = fs1) ∧
      (∀ q, Clean q ≠ Clean path → Clean q ≠ Clean (newPath L rt path info) →
        (visit L rt ignoreList false fs path (some info) none).1.lookup q = fs.lookup q) := by
  obtain ⟨m, hl, _⟩ := readFile_ok hread
  obtain ⟨h1, hframe1⟩ := lookup_after_write hl hwrite
  refine ⟨m, hl, h1, ?_⟩
  rw [visit_file_live L rt ignoreList fs path info hfile hig c hread, if_pos hchange, hwrite]
  dsimp only
  rw [nameStep_live_eq]
  by_cases hn : newName L rt path info ≠ info.name
  · simp only [if_pos hn]
    cases hr : rename fs1 path (newPath L rt path info) with
    | error e =>
      exact ⟨fun h => (by simp at h), fun _ => rfl, fun q hq _ => hframe1 q hq⟩
    | ok fs2 =>
      obtain ⟨h2, hframe2⟩ := lookup_after_rename h1 hr
      exact ⟨fun _ => h2, fun h => absurd rfl h,
        fun q hq hq' => (hframe2 q hq hq').trans (hframe1 q hq)⟩
  · simp only [if_neg hn]
    exact ⟨fun _ => h1, fun h => absurd rfl h, fun q hq _ => hframe1 q hq⟩

/-- Witness of C9, scenario A: `foo.txt` had mode `0644`, and `bar.txt` has it. -/
theorem C9_mode_and_frame_witness :
    ∃ m, sceneA.lookup "foo.txt".toList = some (Node.file "foo123".toList m) ∧
      sceneAdone.lookup "bar.txt".toList = some (Node.file "bar123".toList m) := by
  obtain ⟨m, h0, _, h2, _⟩ :=
    C9_mode_and_frame literalLib (Runtime.insertion literalLib fooBar) [] sceneA
      "foo.txt".toList { name := "foo.txt".toList, isDir := false, mode := 420 } rfl rfl
      "foo123".toList rfl (by decide)
      [(".".toList, Node.dir 493), ("foo.txt".toList, Node.file "bar123".toList 420)] rfl
  exact ⟨m, h0, h2 rfl⟩

/-! ## Fuel: enough fuel for every tree -/

theorem depth_le_maxDepth {fs : FS} {k : Text} {node : Node} (h : fs.find k = some node) :
    depth k ≤ maxDepth fs := by
  induction fs with
  | nil => cases h
  | cons e rest ih =>
    obtain ⟨a, n⟩ := e
    unfold FS.find at h
    unfold maxDepth
    split at h
    · rename_i ha
      rw [← ha]
      exact Nat.le_max_left _ _
    · exact Nat.le_trans (ih h) (Nat.le_max_right _ _)

theorem lstat_error_fuel {fs : FS} {path : Text} {e : Error}
    (h : lstat fs path = Except.error e) : e ≠ Error.outOfFuel := by
  unfold lstat at h
  split at h <;> cases h
  intro hc; cases hc

theorem lstat_dir {fs : FS} {path : Text} {info : FileInfo}
    (h : lstat fs path = Except.ok info) (hd : info.isDir = true) :
    ∃ m, fs.find (Clean path) = some (Node.dir m) := by
  unfold lstat FS.lookup at h
  split at h
  · cases h
  · cases h; cases hd
  · rename_i m hl
    exact ⟨m, hl⟩

theorem readDirNames_error_fuel {fs : FS} {path : Text} {e : Error}
    (h : readDirNames fs path = Except.error e) : e ≠ Error.outOfFuel := by
  unfold readDirNames at h
  split at h
  · cases h; intro hc; cases hc
  · cases h; intro hc; cases hc
  · split at h
    · cases h
    · cases h; intro hc; cases hc

theorem readFile_error_fuel {fs : FS} {path : Text} {e : Error}
    (h : readFile fs path = Except.error e) : e ≠ Error.outOfFuel := by
  unfold readFile at h
  split at h
  · cases h; intro hc; cases hc
  · cases h; intro hc; cases hc
  · split at h
    · cases h
    · cases h; intro hc; cases hc

theorem writeFile_error_fuel {fs : FS} {path d : Text} {perm : FileMode} {e : Error}
    (h : writeFile fs path d perm = Except.error e) : e ≠ Error.outOfFuel := by
  unfold writeFile at h
  split at h
  · cases h; intro hc; cases hc
  · split at h
    · cases h
    · cases h; intro hc; cases hc
  · split at h
    · cases h
    · cases h; intro hc; cases hc

theorem rename_error_fuel {fs : FS} {path dest : Text} {e : Error}
    (h : rename fs path dest = Except.error e) : e ≠ Error.outOfFuel := by
  unfold rename at h
  split at h
  · cases h; intro hc; cases hc
  · cases h; intro hc; cases hc
  · split at h
    · cases h
    · split at h
      · split at h
        · cases h; intro hc; cases hc
        · cases h
      · cases h; intro hc; cases hc

theorem writeFile_put_file {fs fs1 : FS} {path d : Text} {perm : FileMode}
    (h : writeFile fs path d perm = Except.ok fs1) :
    ∃ m, fs1 = fs.put (Clean path) (Node.file d m) := by
  unfold writeFile at h
  split at h
  · cases h
  · split at h
    · cases h; exact ⟨_, rfl⟩
    · cases h
  · split at h
    · cases h; exact ⟨_, rfl⟩
    · cases h

theorem rename_put_file {fs fs' : FS} {path dest : Text}
    (h : rename fs path dest = Except.ok fs') :
    fs' = fs ∨ ∃ c m, fs' = (fs.remove (Clean path)).put (Clean dest) (Node.file c m) := by
  unfold rename at h
  split at h
  · cases h
  · cases h
  · split at h
    · cases h; exact Or.inl rfl
    · split at h
      · split at h
        · cases h
        · cases h; exact Or.inr ⟨_, _, rfl⟩
      · cases h

theorem dirsIn_write {orig fs fs1 : FS} {path d : Text} {perm : FileMode}
    (hd : DirsIn orig fs) (h : writeFile fs path d perm = Except.ok fs1) : DirsIn orig fs1 := by
  obtain ⟨m, rfl⟩ := writeFile_put_file h
  intro k m' hk
  rw [find_put] at hk
  split at hk
  · cases hk
  · exact hd k m' hk

theorem dirsIn_rename {orig fs fs1 : FS} {path dest : Text}
    (hd : DirsIn orig fs) (h : rename fs path dest = Except.ok fs1) : DirsIn orig fs1 := by
  rcases rename_put_file h with rfl | ⟨c, m, rfl⟩
  · exact hd
  · intro k m' hk
    rw [find_put] at hk
    split at hk
    · cases hk
    · rw [find_remove] at hk
      split at hk
      · cases hk
      · exact hd k m' hk

/-- What a visit can have done to the filesystem, and the signals it can return: nothing
but successful writes and renames, and no error but the one handed in or the error of
a failed read, write or rename. -/
theorem visit_cases (L : RegexpLib) {rules : List (Rule L)} (rt : Runtime L rules)
    (ignoreList : List L.Regexp) (dryRun : Bool) (fs : FS) (path : Text)
    (info : Option FileInfo) (err : Option Error) (P : FS → Prop) (h0 : P fs)
    (hw : ∀ a b p d perm, P a → writeFile a p d perm = Except.ok b → P b)
    (hr : ∀ a b p q, P a → rename a p q = Except.ok b → P b) :
    P (visit L rt ignoreList dryRun fs path info err).1 ∧
    (err ≠ some Error.outOfFuel →
      (visit L rt ignoreList dryRun fs path info err).2.2 ≠ Signal.err Error.outOfFuel) := by
  cases err with
  | some e =>
    refine ⟨h0, fun he hc => he ?_⟩
    have : Signal.err e = Signal.err Error.outOfFuel := hc
    cases this
    rfl
  | none =>
    cases info with
    | none => exact ⟨h0, fun _ hc => by cases hc⟩
    | some i =>
      by_cases hig : shouldIgnore L ignoreList path = true
      · rw [visit_ignored L rt ignoreList dryRun fs path i hig]
        refine ⟨h0, fun _ => ?_⟩
        cases i.isDir <;> simp
      · have hig' : shouldIgnore L ignoreList path = false := by
          cases h : shouldIgnore L ignoreList path
          · rfl
          · exact absurd h hig
        cases hd : i.isDir with
        | true =>
          rw [visit_dir L rt ignoreList dryRun fs path i hd none]
          refine ⟨h0, fun _ => ?_⟩
          simp [hig']
        | false =>
          cases hread : readFile fs path with
          | error e =>
            rw [visit_read_error L rt ignoreList dryRun fs path i hd hig' e hread]
            refine ⟨h0, fun _ hc => readFile_error_fuel hread ?_⟩
            have : Signal.err e = Signal.err Error.outOfFuel := hc
            cases this
            rfl
          | ok c =>
            cases dryRun with
            | true =>
              rw [visit_file_dry L rt ignoreList fs path i hd hig' c hread]
              exact ⟨h0, fun _ hc => by cases hc⟩
            | false =>
              have hname : ∀ a, P a → P (nameStep L rt false a path i).1 ∧
                  (nameStep L rt false a path i).2.2 ≠ Signal.err Error.outOfFuel := by
                intro a ha
                rw [nameStep_live_eq]
                by_cases hn : newName L rt path i ≠ i.name
                · simp only [if_pos hn]
                  cases hren : rename a path (newPath L rt path i) with
                  | error e =>
                    refine ⟨ha, fun hc => rename_error_fuel hren ?_⟩
                    have : Signal.err e = Signal.err Error.outOfFuel := hc
                    cases this
                    rfl
                  | ok b => exact ⟨hr _ _ _ _ ha hren, fun hc => by cases hc⟩
                · simp only [if_neg hn]
                  exact ⟨ha, fun hc => by cases hc⟩
              rw [visit_file_live L rt ignoreList fs path i hd hig' c hread]
              by_cases hc : c ≠ newContent L rt path c
              · simp only [if_pos hc]
                cases hwr : writeFile fs path (newContent L rt path c) i.mode with
                | error e =>
                  refine ⟨h0, fun _ hcc => writeFile_error_fuel hwr ?_⟩
                  have : Signal.err e = Signal.err Error.outOfFuel := hcc
                  cases this
                  rfl
                | ok fs1 =>
                  have h1 := hname fs1 (hw _ _ _ _ _ h0 hwr)
                  exact ⟨h1.1, fun _ => h1.2⟩
              · simp only [if_neg hc]
                have h1 := hname fs h0
                exact ⟨h1.1, fun _ => h1.2⟩

theorem walkNames_enough {α : Type} (fn : WalkFunc α) (orig : FS) (N f : Nat)
    (hdirs : ∀ fs p i e, DirsIn orig fs → DirsIn orig (fn fs p i e).1)
    (hfuel : ∀ fs p i e, e ≠ some Error.outOfFuel →
      (fn fs p i e).2.2 ≠ Signal.err Error.outOfFuel)
    (hN : ∀ k m, orig.find k = some (Node.dir m) → depth k ≤ N)
    (hw : ∀ fs p i, DirsIn orig fs →
      (i.isDir = true → N - depth (Clean p) + 2 ≤ f) → (i.isDir = false → 1 ≤ f) →
      (walk fn f fs p i).2.2 ≠ Signal.err Error.outOfFuel ∧ DirsIn orig (walk fn f fs p i).1)
    (path : Text) (hf : N - depth (Clean path) + 1 ≤ f) (names : List Text)
    (hnames : ∀ n ∈ names, validName n = true) :
    ∀ fs, DirsIn orig fs →
      (walkNames fn (walk fn f) path names fs).2.2 ≠ Signal.err Error.outOfFuel ∧
      DirsIn orig (walkNames fn (walk fn f) path names fs).1 := by
  induction names with
  | nil => intro fs hd; exact ⟨fun hc => (by cases hc), hd⟩
  | cons name rest ih =>
    intro fs hd
    have ih' := ih (fun n hn => hnames n (List.mem_cons_of_mem _ hn))
    have hv := hnames name (List.mem_cons_self _ _)
    unfold walkNames
    dsimp only
    cases hl : lstat fs (Join path name) with
    | error e =>
      dsimp only
      have h1 := hfuel fs (Join path name) none (some e)
        (fun hc => lstat_error_fuel hl (by cases hc; rfl))
      have h2 := hdirs fs (Join path name) none (some e) hd
      split
      · exact ⟨h1, h2⟩
      · exact ih' _ h2
    | ok fi =>
      dsimp only
      have h := hw fs (Join path name) fi hd
        (fun hdir => by
          obtain ⟨m, hm⟩ := lstat_dir hl hdir
          have h1 := hN _ m (hd _ m hm)
          have h2 := depth_Join path name hv
          omega)
        (fun _ => by omega)
      split
      · exact h
      · exact ih' _ h.2

/-- With fuel beyond the depth of the directories below it, the walk of an entry does not
run out of fuel. -/
theorem walk_enough {α : Type} (fn : WalkFunc α) (orig : FS) (N : Nat)
    (hdirs : ∀ fs p i e, DirsIn orig fs → DirsIn orig (fn fs p i e).1)
    (hfuel : ∀ fs p i e, e ≠ some Error.outOfFuel →
      (fn fs p i e).2.2 ≠ Signal.err Error.outOfFuel)
    (hN : ∀ k m, orig.find k = some (Node.dir m) → depth k ≤ N) (f : Nat) :
    ∀ fs p i, DirsIn orig fs →
      (i.isDir = true → N - depth (Clean p) + 2 ≤ f) → (i.isDir = false → 1 ≤ f) →
      (walk fn f fs p i).2.2 ≠ Signal.err Error.outOfFuel ∧ DirsIn orig (walk fn f fs p i).1 := by
  induction f with
  | zero =>
    intro fs p i _ h1 h2
    cases hd : i.isDir with
    | true => have := h1 hd; omega
    | false => have := h2 hd; omega
  | succ f ih =>
    intro fs p i hd h1 h2
    have hself : ∀ e, e ≠ some Error.outOfFuel →
        (fn fs p (some i) e).2.2 ≠ Signal.err Error.outOfFuel ∧
        DirsIn orig (fn fs p (some i) e).1 :=
      fun e he => ⟨hfuel fs p (some i) e he, hdirs fs p (some i) e hd⟩
    unfold walk
    dsimp only
    cases hdir : i.isDir with
    | false =>
      simp only [Bool.not_false, if_true]
      exact hself none (by simp)
    | true =>
      simp only [Bool.not_true, Bool.false_eq_true, if_false]
      cases hr : readDirNames fs p with
      | error e =>
        exact hself (some e) (fun hc => readDirNames_error_fuel hr (by cases hc; rfl))
      | ok names =>
        dsimp only
        split
        · exact hself none (by simp)
        · have hf : N - depth (Clean p) + 1 ≤ f := by have := h1 hdir; omega
          exact walkNames_enough fn orig N f hdirs hfuel hN ih p hf names
            (fun n hn => (readDirNames_mem hr hn).1) _ (hself none (by simp)).2

/-- Fuel beyond the depth of the tree is enough: the walk of `renameFilesAndContent` then
ends otherwise than by running out of fuel, in a dry run and in a live run. -/
theorem renameFilesAndContent_enough (L : RegexpLib) {rules : List (Rule L)}
    (rt : Runtime L rules) (fuel : Nat) (fs : FS) (root : Text) (ignoreList : List L.Regexp)
    (dryRun : Bool) (hfuel : maxDepth fs + 2 ≤ fuel) :
    (renameFilesAndContent L rt fuel fs root ignoreList dryRun).2.2 ≠
      some Error.outOfFuel := by
  have hdirs : ∀ a p i e, DirsIn fs a → DirsIn fs (visit L rt ignoreList dryRun a p i e).1 :=
    fun a p i e ha => (visit_cases L rt ignoreList dryRun a p i e (DirsIn fs) ha
      (fun _ _ _ _ _ h1 h2 => dirsIn_write h1 h2) (fun _ _ _ _ h1 h2 => dirsIn_rename h1 h2)).1
  have hf : ∀ a p i e, e ≠ some Error.outOfFuel →
      (visit L rt ignoreList dryRun a p i e).2.2 ≠ Signal.err Error.outOfFuel :=
    fun a p i e he => (visit_cases L rt ignoreList dryRun a p i e (fun _ => True) trivial
      (fun _ _ _ _ _ _ _ => trivial) (fun _ _ _ _ _ _ => trivial)).2 he
  unfold renameFilesAndContent
  rw [Walk_eq]
  dsimp only
  cases hl : lstat fs root with
  | error e =>
    dsimp only
    have := hf fs root none (some e) (fun hc => lstat_error_fuel hl (by cases hc; rfl))
    intro hc
    apply this
    cases hs : (visit L rt ignoreList dryRun fs root none (some e)).2.2 with
    | nil => rw [hs] at hc; cases hc
    | skipDir => rw [hs] at hc; cases hc
    | err e' =>
      rw [hs] at hc
      simp only [Signal.toError, Option.some.injEq] at hc
      rw [hc]
  | ok info =>
    dsimp only
    have := (walk_enough (visit L rt ignoreList dryRun) fs (maxDepth fs) hdirs hf
      (fun k m hk => depth_le_maxDepth hk) fuel fs root info (fun _ _ h => h)
      (fun _ => by omega) (fun _ => by omega)).1
    intro hc
    apply this
    cases hs : (walk (visit L rt ignoreList dryRun) fuel fs root info).2.2 with
    | nil => rw [hs] at hc; cases hc
    | skipDir => rw [hs] at hc; cases hc
    | err e' =>
      rw [hs] at hc
      simp only [Signal.toError, Option.some.injEq] at hc
      rw [hc]

/-! ## C4: what a dry run announces and what a live run does -/

/-- C4 as stated fails: under the rule `a=>b`, in a directory with the files `a` and `b`,
the dry run announces the rename of `a` to `b` and a change of content in `b`; the
live run renames `a` over `b` and then finds nothing to change in `b`. -/
theorem C4_counterexample :
    renameFilesAndContent literalLib (Runtime.insertion literalLib aToB) 5 clashTree
      ".".toList [] true =
      (clashTree, [Report.renamed true "a".toList "b".toList,
        Report.substitutions true "b".toList], none) ∧
    renameFilesAndContent literalLib (Runtime.insertion literalLib aToB) 5 clashTree
      ".".toList [] false =
      ([(".".toList, Node.dir 493), ("b".toList, Node.file "x".toList 420)],
        [Report.renamed false "a".toList "b".toList], none) ∧
    (renameFilesAndContent literalLib (Runtime.insertion literalLib aToB) 5 clashTree
      ".".toList [] true).2.1.map Report.change ≠
    (renameFilesAndContent literalLib (Runtime.insertion literalLib aToB) 5 clashTree
      ".".toList [] false).2.1.map Report.change := by
  refine ⟨rfl, rfl, ?_⟩
  decide

/-! ## A live run beside a dry run -/

theorem childNames_cons (e : Text × Node) (rest : FS) (d : Text) :
    childNames (e :: rest) d =
      if (decide (e.1 ≠ d ∧ Dir e.1 = d) && validName (basename e.1)) = true then
        basename e.1 :: childNames rest d
      else childNames rest d := by
  unfold childNames
  rw [List.filter_cons]
  split <;> simp

theorem childNames_cons_other (k : Text) (n : Node) (rest : FS) (d : Text) (h : d ≠ Dir k) :
    childNames ((k, n) :: rest) d = childNames rest d := by
  rw [childNames_cons]
  have : ¬ Dir k = d := fun e => h e.symm
  simp [this]

theorem childNames_remove (fs : FS) (k d : Text) (h : d ≠ Dir k) :
    childNames (fs.remove k) d = childNames fs d := by
  induction fs with
  | nil => rfl
  | cons e rest ih =>
    obtain ⟨a, n⟩ := e
    unfold FS.remove
    by_cases ha : a = k
    · simp only [ha, if_true]
      rw [ih, childNames_cons_other k n rest d h]
    · simp only [ha, if_false]
      rw [childNames_cons, childNames_cons (a, n) rest d, ih]

theorem childNames_put (fs : FS) (k d : Text) (node : Node) (h : d ≠ Dir k) :
    childNames (fs.put k node) d = childNames fs d := by
  induction fs with
  | nil =>
    unfold FS.put
    rw [childNames_cons_other k node [] d h]
  | cons e rest ih =>
    obtain ⟨a, n⟩ := e
    unfold FS.put
    by_cases ha : a = k
    · simp only [ha, if_true]
      rw [childNames_cons_other k node _ d h, childNames_cons_other k n rest d h,
        childNames_remove rest k d h]
    · simp only [ha, if_false]
      rw [childNames_cons, childNames_cons (a, n) rest d, ih]

theorem writeFile_put {fs fs1 : FS} {path d : Text} {perm : FileMode}
    (h : writeFile fs path d perm = Except.ok fs1) :
    ∃ node, fs1 = fs.put (Clean path) node := by
  unfold writeFile at h
  split at h
  · cases h
  · split at h
    · cases h; exact ⟨_, rfl⟩
    · cases h
  · split at h
    · cases h; exact ⟨_, rfl⟩
    · cases h

theorem rename_put {fs fs' : FS} {path dest : Text}
    (h : rename fs path dest = Except.ok fs') :
    fs' = fs ∨ ∃ node, fs' = (fs.remove (Clean path)).put (Clean dest) node := by
  unfold rename at h
  split at h
  · cases h
  · cases h
  · split at h
    · cases h; exact Or.inl rfl
    · split at h
      · split at h
        · cases h
        · cases h; exact Or.inr ⟨_, rfl⟩
      · cases h

theorem agree_mono {seen seen' : List Text} {fs fsL : FS} (h : Agree seen fs fsL)
    (hsub : ∀ k, k ∈ seen → k ∈ seen') : Agree seen' fs fsL :=
  fun k hk => h k (fun hm => hk (hsub k hm))

theorem agree_refl (fs : FS) : Agree [] fs fs := fun _ _ => ⟨rfl, rfl⟩

theorem agree_write {seen : List Text} {fs fsL fsL1 : FS} (h : Agree seen fs fsL)
    {path d : Text} {perm : FileMode} (hw : writeFile fsL path d perm = Except.ok fsL1) :
    Agree (seen ++ [Clean path, Dir (Clean path)]) fs fsL1 := by
  obtain ⟨node, rfl⟩ := writeFile_put hw
  intro k hk
  simp only [List.mem_append, List.mem_cons, List.mem_singleton, List.not_mem_nil,
    or_false, not_or] at hk
  obtain ⟨hs, hk1, hk2⟩ := hk
  obtain ⟨h1, h2⟩ := h k hs
  refine ⟨?_, ?_⟩
  · rw [find_put, if_neg hk1, h1]
  · rw [childNames_put _ _ _ _ hk2, h2]

theorem agree_rename {seen : List Text} {fs fsL fsL1 : FS} (h : Agree seen fs fsL)
    {path dest : Text} (hr : rename fsL path dest = Except.ok fsL1) :
    Agree (seen ++ [Clean path, Dir (Clean path), Clean dest, Dir (Clean dest)]) fs fsL1 := by
  intro k hk
  simp only [List.mem_append, List.mem_cons, List.mem_singleton, List.not_mem_nil,
    or_false, not_or] at hk
  obtain ⟨hs, hk1, hk2, hk3, hk4⟩ := hk
  obtain ⟨h1, h2⟩ := h k hs
  rcases rename_put hr with rfl | ⟨node, rfl⟩
  · exact ⟨h1, h2⟩
  · refine ⟨?_, ?_⟩
    · rw [find_put, if_neg hk3, find_remove, if_neg hk1, h1]
    · rw [childNames_put _ _ _ _ hk4, childNames_remove _ _ _ hk2, h2]

theorem agree_lstat {seen : List Text} {fs fsL : FS} (h : Agree seen fs fsL) {path : Text}
    (hp : Clean path ∉ seen) : lstat fsL path = lstat fs path := by
  unfold lstat FS.lookup
  rw [(h _ hp).1]

theorem agree_readFile {seen : List Text} {fs fsL : FS} (h : Agree seen fs fsL) {path : Text}
    (hp : Clean path ∉ seen) : readFile fsL path = readFile fs path := by
  unfold readFile FS.lookup
  rw [(h _ hp).1]

theorem agree_readDirNames {seen : List Text} {fs fsL : FS} (h : Agree seen fs fsL)
    {path : Text} (hp : Clean path ∉ seen) : readDirNames fsL path = readDirNames fs path := by
  unfold readDirNames FS.lookup
  rw [(h _ hp).1, (h _ hp).2]

theorem announced_single (path : Text) (reports : List Report) :
    announced [(path, reports)] = reports := by
  simp [announced]

theorem touchedBy_single (path : Text) (reports : List Report) :
    touchedBy [(path, reports)] = reports.flatMap Report.touched := by
  simp [touchedBy, announced]

theorem announced_append (a b : List (Text × List Report)) :
    announced (a ++ b) = announced a ++ announced b := by
  simp [announced]

theorem touchedBy_append (a b : List (Text × List Report)) :
    touchedBy (a ++ b) = touchedBy a ++ touchedBy b := by
  simp [touchedBy, announced]

theorem touchedBy_cons (v : Text × List Report) (rest : List (Text × List Report)) :
    touchedBy (v :: rest) = v.2.flatMap Report.touched ++ touchedBy rest := by
  simp [touchedBy, announced]

theorem undisturbed_append (seen : List Text) (a b : List (Text × List Report)) :
    undisturbed seen (a ++ b) = (undisturbed seen a && undisturbed (seen ++ touchedBy a) b) := by
  induction a generalizing seen with
  | nil => simp [undisturbed, touchedBy, announced]
  | cons v rest ih =>
    obtain ⟨p, rs⟩ := v
    rw [List.cons_append]
    simp only [undisturbed]
    rw [ih, touchedBy_cons]
    simp only [List.append_assoc, Bool.and_assoc]

theorem carryOut_cons (L : RegexpLib) {rules : List (Rule L)} (rt : Runtime L rules)
    (orig fs : FS) (r : Report) (rest : List Report) :
    carryOut L rt orig fs (r :: rest) =
      match attempt L rt orig fs r with
      | Except.error e => Except.error e
      | Except.ok fs1 => carryOut L rt orig fs1 rest := rfl

theorem carryOut_nil (L : RegexpLib) {rules : List (Rule L)} (rt : Runtime L rules)
    (orig fs : FS) : carryOut L rt orig fs [] = Except.ok fs := rfl

theorem carryOut_append (L : RegexpLib) {rules : List (Rule L)} (rt : Runtime L rules)
    (orig : FS) (a b : List Report) :
    ∀ fs, carryOut L rt orig fs (a ++ b) =
      match carryOut L rt orig fs a with
      | Except.error e => Except.error e
      | Except.ok fs1 => carryOut L rt orig fs1 b := by
  induction a with
  | nil => intro fs; rfl
  | cons r rest ih =>
    intro fs
    rw [List.cons_append, carryOut_cons, carryOut_cons]
    cases attempt L rt orig fs r with
    | error e => rfl
    | ok fs1 => exact ih fs1

/-- The permission argument of a write to an existing file does not count. -/
theorem writeFile_perm {fs : FS} {path c : Text} {m : FileMode}
    (hl : fs.lookup path = some (Node.file c m)) (d : Text) (p q : FileMode) :
    writeFile fs path d p = writeFile fs path d q := by
  unfold writeFile
  rw [hl]

theorem attempt_substitutions (L : RegexpLib) {rules : List (Rule L)} (rt : Runtime L rules)
    {fs fsL : FS} {path c : Text} (b : Bool) (perm : FileMode)
    (hread : readFile fs path = Except.ok c) (hreadL : readFile fsL path = Except.ok c) :
    attempt L rt fs fsL (Report.substitutions b path) =
      writeFile fsL path (newContent L rt path c) perm := by
  obtain ⟨m0, hl0, _⟩ := readFile_ok hread
  obtain ⟨m, hl, _⟩ := readFile_ok hreadL
  show (match fs.lookup path with
    | some (Node.file c m) => writeFile fsL path (newContent L rt path c) m
    | _ => Except.error (Error.notExist path)) = _
  rw [hl0]
  exact writeFile_perm hl _ _ _

theorem attempt_renamed (L : RegexpLib) {rules : List (Rule L)} (rt : Runtime L rules)
    (fs fsL : FS) (path dest : Text) (b : Bool) :
    attempt L rt fs fsL (Report.renamed b path dest) = rename fsL path dest := rfl

/-- The live visit beside the dry visit of the same entry, on filesystems that agree at
the entry. -/
theorem visit_sim (L : RegexpLib) {rules : List (Rule L)} (rt : Runtime L rules)
    (ignoreList : List L.Regexp) (seen : List Text) (fs fsL : FS) (hA : Agree seen fs fsL)
    (path : Text) (info : Option FileInfo) (err : Option Error) (hp : Clean path ∉ seen) :
    Simulates L rt seen fs fsL (logged (visit L rt ignoreList true) fs path info err)
      (visit L rt ignoreList false fsL path info err) := by
  unfold Simulates logged
  simp only [announced_single, touchedBy_single]
  cases err with
  | some e => exact Or.inl ⟨e, rfl, Or.inl ⟨e, rfl⟩⟩
  | none =>
    cases info with
    | none => exact Or.inl ⟨Error.nilInfo, rfl, Or.inl ⟨Error.nilInfo, rfl⟩⟩
    | some i =>
      by_cases hig : shouldIgnore L ignoreList path = true
      · right
        rw [visit_ignored L rt ignoreList false fsL path i hig,
          visit_ignored L rt ignoreList true fs path i hig]
        exact ⟨rfl, rfl, by simpa using hA, rfl⟩
      · have hig' : shouldIgnore L ignoreList path = false := by
          cases h : shouldIgnore L ignoreList path
          · rfl
          · exact absurd h hig
        cases hd : i.isDir with
        | true =>
          right
          rw [visit_dir L rt ignoreList false fsL path i hd none,
            visit_dir L rt ignoreList true fs path i hd none]
          exact ⟨rfl, rfl, by simpa using hA, rfl⟩
        | false =>
          have hr := agree_readFile hA hp
          cases hread : readFile fs path with
          | error e =>
            left
            rw [visit_read_error L rt ignoreList false fsL path i hd hig' e (hr.trans hread),
              visit_read_error L rt ignoreList true fs path i hd hig' e hread]
            exact ⟨e, rfl, Or.inl ⟨e, rfl⟩⟩
          | ok c =>
            have hreadL : readFile fsL path = Except.ok c := hr.trans hread
            obtain ⟨m, hlL, _⟩ := readFile_ok hreadL
            have hat := attempt_substitutions L rt true i.mode hread hreadL
            rw [visit_file_live L rt ignoreList fsL path i hd hig' c hreadL,
              visit_file_dry L rt ignoreList fs path i hd hig' c hread]
            by_cases hc : c ≠ newContent L rt path c
            · simp only [if_pos hc]
              cases hw : writeFile fsL path (newContent L rt path c) i.mode with
              | error e =>
                refine Or.inl ⟨e, rfl, Or.inr ⟨e, ?_⟩⟩
                rw [List.singleton_append, carryOut_cons, hat, hw]
              | ok fsL1 =>
                dsimp only
                rw [nameStep_live_eq]
                have hA1 := agree_write hA hw
                by_cases hn : newName L rt path i ≠ i.name
                · simp only [if_pos hn]
                  cases hren : rename fsL1 path (newPath L rt path i) with
                  | error e =>
                    refine Or.inl ⟨e, rfl, Or.inr ⟨e, ?_⟩⟩
                    rw [List.singleton_append, carryOut_cons, hat, hw]
                    dsimp only
                    rw [carryOut_cons, attempt_renamed, hren]
                  | ok fsL2 =>
                    right
                    refine ⟨by trivial, by trivial, ?_, ?_⟩
                    · refine agree_mono (agree_rename hA1 hren) ?_
                      intro k hk
                      simpa [Report.touched, or_assoc] using hk
                    · rw [List.singleton_append, carryOut_cons, hat, hw]
                      dsimp only
                      rw [carryOut_cons, attempt_renamed, hren]
                      rfl
                · simp only [if_neg hn]
                  right
                  refine ⟨by trivial, by trivial, ?_, ?_⟩
                  · refine agree_mono hA1 ?_
                    intro k hk
                    simpa [Report.touched] using hk
                  · rw [List.append_nil, carryOut_cons, hat, hw]
                    rfl
            · simp only [if_neg hc]
              rw [nameStep_live_eq]
              by_cases hn : newName L rt path i ≠ i.name
              · simp only [if_pos hn]
                cases hren : rename fsL path (newPath L rt path i) with
                | error e =>
                  refine Or.inl ⟨e, rfl, Or.inr ⟨e, ?_⟩⟩
                  rw [List.nil_append, carryOut_cons, attempt_renamed, hren]
                | ok fsL2 =>
                  right
                  refine ⟨by trivial, by trivial, ?_, ?_⟩
                  · refine agree_mono (agree_rename hA hren) ?_
                    intro k hk
                    simpa [Report.touched, or_assoc] using hk
                  · rw [List.nil_append, carryOut_cons, attempt_renamed, hren]
                    rfl
              · simp only [if_neg hn]
                right
                exact ⟨by trivial, by trivial, by simpa using hA, rfl⟩

theorem logged_dry_quiet (L : RegexpLib) {rules : List (Rule L)} (rt : Runtime L rules)
    (ignoreList : List L.Regexp) (fs : FS) :
    Quiet (logged (visit L rt ignoreList true)) fs (fun _ => True) (fun _ => True) :=
  fun p i e _ => ⟨(visit_dry L rt ignoreList fs p i e).1, fun _ _ => trivial⟩

theorem dry_walk_fs (L : RegexpLib) {rules : List (Rule L)} (rt : Runtime L rules)
    (ignoreList : List L.Regexp) (fuel : Nat) (fs : FS) (path : Text) (info : FileInfo) :
    (walk (logged (visit L rt ignoreList true)) fuel fs path info).1 = fs :=
  (walk_quiet _ fs _ (fun _ => True) (logged_dry_quiet L rt ignoreList fs)
    (fun _ _ _ _ _ _ _ => trivial) fuel path info trivial).1

theorem walk_log_head (fn : WalkFunc Report) (fuel : Nat) (fs : FS) (path : Text)
    (info : FileInfo) :
    ∃ rs rest, (walk (logged fn) (fuel + 1) fs path info).2.1 = (path, rs) :: rest := by
  unfold walk
  split
  · exact ⟨_, [], rfl⟩
  · cases readDirNames fs path with
    | error e => exact ⟨_, [], rfl⟩
    | ok names =>
      dsimp only
      split
      · exact ⟨_, [], rfl⟩
      · exact ⟨_, _, rfl⟩

theorem undisturbed_head {seen : List Text} {path : Text} {rs : List Report}
    {rest : List (Text × List Report)} (h : undisturbed seen ((path, rs) :: rest) = true) :
    Clean path ∉ seen := by
  simp only [undisturbed, Bool.and_eq_true, decide_eq_true_eq] at h
  exact h.1

/-- A first stretch followed, unless it says stop, by a second one. -/
theorem sim_then (L : RegexpLib) {rules : List (Rule L)} (rt : Runtime L rules)
    (seen : List Text) (fs start : FS) (stop : Signal → Prop) [DecidablePred stop]
    (hstop : ∀ e, stop (Signal.err e))
    (d1 d2 : FS × List (Text × List Report) × Signal) (l1 l2 : FS × List Report × Signal)
    (h1 : Simulates L rt seen fs start d1 l1)
    (h2 : ¬ stop d1.2.2 → l1.2.2 = d1.2.2 → Agree (seen ++ touchedBy d1.2.1) fs l1.1 →
      Simulates L rt (seen ++ touchedBy d1.2.1) fs l1.1 d2 l2) :
    Simulates L rt seen fs start
      (if stop d1.2.2 then d1 else (d2.1, d1.2.1 ++ d2.2.1, d2.2.2))
      (if stop l1.2.2 then l1 else (l2.1, l1.2.1 ++ l2.2.1, l2.2.2)) := by
  rcases h1 with ⟨e, he, hwhy⟩ | ⟨hs, hc, hA, hF⟩
  · have : stop l1.2.2 := by rw [he]; exact hstop e
    rw [if_pos this]
    refine Or.inl ⟨e, he, ?_⟩
    rcases hwhy with ⟨e', he'⟩ | ⟨e', hfail⟩
    · have : stop d1.2.2 := by rw [he']; exact hstop e'
      rw [if_pos this]
      exact Or.inl ⟨e', he'⟩
    · right
      by_cases hd : stop d1.2.2
      · rw [if_pos hd]
        exact ⟨e', hfail⟩
      · rw [if_neg hd]
        refine ⟨e', ?_⟩
        show carryOut L rt fs start (announced (d1.2.1 ++ d2.2.1)) = Except.error e'
        rw [announced_append, carryOut_append, hfail]
  · rw [hs]
    by_cases hd : stop d1.2.2
    · rw [if_pos hd, if_pos hd]
      exact Or.inr ⟨hs, hc, hA, hF⟩
    · rw [if_neg hd, if_neg hd]
      rcases h2 hd hs hA with ⟨e, he, hwhy⟩ | ⟨hs2, hc2, hA2, hF2⟩
      · refine Or.inl ⟨e, he, ?_⟩
        rcases hwhy with ⟨e', he'⟩ | ⟨e', hfail⟩
        · exact Or.inl ⟨e', he'⟩
        · right
          refine ⟨e', ?_⟩
          show carryOut L rt fs start (announced (d1.2.1 ++ d2.2.1)) = Except.error e'
          rw [announced_append, carryOut_append, hF]
          exact hfail
      · right
        refine ⟨hs2, ?_, ?_, ?_⟩
        · show (l1.2.1 ++ l2.2.1).map Report.change =
            (announced (d1.2.1 ++ d2.2.1)).map Report.change
          rw [List.map_append, announced_append, List.map_append, hc, hc2]
        · show Agree (seen ++ touchedBy (d1.2.1 ++ d2.2.1)) fs l2.1
          rw [touchedBy_append, ← List.append_assoc]
          exact hA2
        · show carryOut L rt fs start (announced (d1.2.1 ++ d2.2.1)) = Except.ok l2.1
          rw [announced_append, carryOut_append, hF]
          exact hF2

theorem walkNames_sim (L : RegexpLib) {rules : List (Rule L)} (rt : Runtime L rules)
    (ignoreList : List L.Regexp) (fuel : Nat)
    (hw : ∀ seen fs fsL path info, Agree seen fs fsL →
      undisturbed seen (walk (logged (visit L rt ignoreList true)) fuel fs path info).2.1 = true →
      Simulates L rt seen fs fsL (walk (logged (visit L rt ignoreList true)) fuel fs path info)
        (walk (visit L rt ignoreList false) fuel fsL path info))
    (path : Text) (names : List Text) :
    ∀ seen fs fsL, Agree seen fs fsL →
      undisturbed seen (walkNames (logged (visit L rt ignoreList true))
        (walk (logged (visit L rt ignoreList true)) fuel) path names fs).2.1 = true →
      Simulates L rt seen fs fsL
        (walkNames (logged (visit L rt ignoreList true))
          (walk (logged (visit L rt ignoreList true)) fuel) path names fs)
        (walkNames (visit L rt ignoreList false)
          (walk (visit L rt ignoreList false) fuel) path names fsL) := by
  induction names with
  | nil =>
    intro seen fs fsL hA _
    exact Or.inr ⟨rfl, rfl, by simpa [walkNames, touchedBy, announced] using hA, rfl⟩
  | cons name rest ih =>
    intro seen fs fsL hA hU
    unfold walkNames at hU ⊢
    dsimp only at hU ⊢
    cases hl : lstat fs (Join path name) with
    | error e =>
      rw [hl] at hU
      have hp : Clean (Join path name) ∉ seen := by
        have : undisturbed seen [(Join path name, [])] = true := hU
        exact undisturbed_head this
      rw [agree_lstat hA hp, hl]
      exact Or.inl ⟨e, rfl, Or.inl ⟨e, rfl⟩⟩
    | ok fi =>
      rw [hl] at hU
      dsimp only at hU ⊢
      cases fuel with
      | zero =>
        left
        cases hlL : lstat fsL (Join path name) with
        | error e' => exact ⟨e', by simp [visit], Or.inl ⟨Error.outOfFuel, by simp [walk]⟩⟩
        | ok fi' =>
          exact ⟨Error.outOfFuel, by simp [walk], Or.inl ⟨Error.outOfFuel, by simp [walk]⟩⟩
      | succ n =>
        obtain ⟨rs, tail, hhead⟩ := walk_log_head (visit L rt ignoreList true) n fs
          (Join path name) fi
        have hfs := dry_walk_fs L rt ignoreList (n + 1) fs (Join path name) fi
        have hU1 : undisturbed seen
            (walk (logged (visit L rt ignoreList true)) (n + 1) fs (Join path name) fi).2.1 =
              true ∧
            (¬ ((walk (logged (visit L rt ignoreList true)) (n + 1) fs
                  (Join path name) fi).2.2 ≠ Signal.nil ∧
                ((!fi.isDir) = true ∨
                  (walk (logged (visit L rt ignoreList true)) (n + 1) fs
                    (Join path name) fi).2.2 ≠ Signal.skipDir)) →
              undisturbed (seen ++ touchedBy
                (walk (logged (visit L rt ignoreList true)) (n + 1) fs (Join path name) fi).2.1)
                (walkNames (logged (visit L rt ignoreList true))
                  (walk (logged (visit L rt ignoreList true)) (n + 1)) path rest fs).2.1 =
                true) := by
          split at hU
          · exact ⟨hU, fun h => absurd ‹_› h⟩
          · rw [hfs] at hU
            have h := hU
            simp only [undisturbed_append, Bool.and_eq_true] at h
            exact ⟨h.1, fun _ => h.2⟩
        have hp : Clean (Join path name) ∉ seen := by
          have h := hU1.1
          rw [hhead] at h
          exact undisturbed_head h
        rw [agree_lstat hA hp, hl]
        dsimp only
        exact sim_then L rt seen fs fsL
          (fun s => s ≠ Signal.nil ∧ ((!fi.isDir) = true ∨ s ≠ Signal.skipDir))
          (fun e => ⟨by simp, Or.inr (by simp)⟩) _ _ _ _
          (hw seen fs fsL (Join path name) fi hA hU1.1)
          (fun hns _ hA1 => by
            rw [hfs]
            exact ih _ fs _ hA1 (hU1.2 hns))

/-- The live walk of an entry beside the logged dry walk of the same entry. -/
theorem walk_sim (L : RegexpLib) {rules : List (Rule L)} (rt : Runtime L rules)
    (ignoreList : List L.Regexp) (fuel : Nat) :
    ∀ seen fs fsL path info, Agree seen fs fsL →
      undisturbed seen (walk (logged (visit L rt ignoreList true)) fuel fs path info).2.1 = true →
      Simulates L rt seen fs fsL (walk (logged (visit L rt ignoreList true)) fuel fs path info)
        (walk (visit L rt ignoreList false) fuel fsL path info) := by
  induction fuel with
  | zero =>
    intro seen fs fsL path info _ _
    exact Or.inl ⟨Error.outOfFuel, rfl, Or.inl ⟨Error.outOfFuel, rfl⟩⟩
  | succ n ih =>
    intro seen fs fsL path info hA hU
    obtain ⟨rs, tail, hhead⟩ := walk_log_head (visit L rt ignoreList true) n fs path info
    have hp : Clean path ∉ seen := by
      rw [hhead] at hU
      exact undisturbed_head hU
    unfold walk at hU ⊢
    dsimp only at hU ⊢
    cases hd : info.isDir with
    | false =>
      simp only [Bool.not_false, if_true]
      exact visit_sim L rt ignoreList seen fs fsL hA path (some info) none hp
    | true =>
      rw [hd] at hU
      simp only [Bool.not_true, Bool.false_eq_true, if_false] at hU ⊢
      rw [agree_readDirNames hA hp]
      cases hr : readDirNames fs path with
      | error e => exact Or.inl ⟨e, rfl, Or.inl ⟨e, rfl⟩⟩
      | ok names =>
        rw [hr] at hU
        dsimp only at hU ⊢
        have hfs : (logged (visit L rt ignoreList true) fs path (some info) none).1 = fs :=
          (visit_dry L rt ignoreList fs path (some info) none).1
        have hU1 : (¬ (logged (visit L rt ignoreList true) fs path (some info) none).2.2 ≠
              Signal.nil →
            undisturbed (seen ++ touchedBy
                (logged (visit L rt ignoreList true) fs path (some info) none).2.1)
              (walkNames (logged (visit L rt ignoreList true))
                (walk (logged (visit L rt ignoreList true)) n) path names fs).2.1 = true) := by
          intro hns
          rw [if_neg hns, hfs] at hU
          have h := hU
          simp only [undisturbed_append, Bool.and_eq_true] at h
          exact h.2
        exact sim_then L rt seen fs fsL (fun s => s ≠ Signal.nil) (fun e => by simp) _ _ _ _
          (visit_sim L rt ignoreList seen fs fsL hA path (some info) none hp)
          (fun hns _ hA1 => by
            rw [hfs]
            exact walkNames_sim L rt ignoreList n ih path names _ fs _ hA1 (hU1 hns))

theorem logs_then (stop : Signal → Prop) [DecidablePred stop]
    (d1l d2l : FS × List (Text × List Report) × Signal) (d1 d2 : FS × List Report × Signal)
    (h1 : Logs d1l d1) (h2 : Logs d2l d2) :
    Logs (if stop d1l.2.2 then d1l else (d2l.1, d1l.2.1 ++ d2l.2.1, d2l.2.2))
      (if stop d1.2.2 then d1 else (d2.1, d1.2.1 ++ d2.2.1, d2.2.2)) := by
  obtain ⟨ha, hb, hc⟩ := h1
  obtain ⟨ha2, hb2, hc2⟩ := h2
  rw [hc]
  by_cases hs : stop d1.2.2
  · rw [if_pos hs, if_pos hs]
    exact ⟨ha, hb, hc⟩
  · rw [if_neg hs, if_neg hs]
    refine ⟨ha2, ?_, hc2⟩
    show announced (d1l.2.1 ++ d2l.2.1) = d1.2.1 ++ d2.2.1
    rw [announced_append, hb, hb2]

theorem logged_logs (fn : WalkFunc Report) (fs : FS) (path : Text) (info : Option FileInfo)
    (err : Option Error) : Logs (logged fn fs path info err) (fn fs path info err) :=
  ⟨rfl, announced_single _ _, rfl⟩

theorem walkNames_logged (fn : WalkFunc Report)
    (wdl : FS → Text → FileInfo → FS × List (Text × List Report) × Signal)
    (wd : FS → Text → FileInfo → FS × List Report × Signal)
    (h : ∀ fs p i, Logs (wdl fs p i) (wd fs p i)) (path : Text) (names : List Text) :
    ∀ fs, Logs (walkNames (logged fn) wdl path names fs) (walkNames fn wd path names fs) := by
  induction names with
  | nil => intro fs; exact ⟨rfl, rfl, rfl⟩
  | cons name rest ih =>
    intro fs
    unfold walkNames
    dsimp only
    cases lstat fs (Join path name) with
    | error e =>
      dsimp only
      have h1 := logged_logs fn fs (Join path name) none (some e)
      refine logs_then (fun s => s ≠ Signal.nil ∧ s ≠ Signal.skipDir) _ _ _ _ h1 ?_
      rw [h1.1]
      exact ih _
    | ok fi =>
      dsimp only
      have h1 := h fs (Join path name) fi
      refine logs_then (fun s => s ≠ Signal.nil ∧ ((!fi.isDir) = true ∨ s ≠ Signal.skipDir))
        _ _ _ _ h1 ?_
      rw [h1.1]
      exact ih _

theorem walk_logged (fn : WalkFunc Report) (fuel : Nat) :
    ∀ fs path info, Logs (walk (logged fn) fuel fs path info) (walk fn fuel fs path info) := by
  induction fuel with
  | zero => intro fs path info; exact ⟨rfl, rfl, rfl⟩
  | succ n ih =>
    intro fs path info
    unfold walk
    dsimp only
    split
    · exact logged_logs fn fs path (some info) none
    · cases readDirNames fs path with
      | error e => exact logged_logs fn fs path (some info) (some e)
      | ok names =>
        dsimp only
        have h1 := logged_logs fn fs path (some info) none
        refine logs_then (fun s => s ≠ Signal.nil) _ _ _ _ h1 ?_
        rw [h1.1]
        exact walkNames_logged fn _ _ ih path names _

/-- On the tree of the two files `a` and `b` the walk visits `b` after the rename of `a`
has touched it. -/
theorem clashTree_disturbed :
    undisturbed [] (Walk (logged (visit literalLib (Runtime.insertion literalLib aToB)
      [] true)) 5 clashTree ".".toList).2.1 = false := rfl

/-- C4, amended: let both runs iterate the rules in the same orders, and let the walk
visit no path after a change announced by the dry run has touched it (the file
rewritten, the source or the destination of a rename, or the directory that lists one
of them).  With fuel for the depth of the tree neither run stops for want of fuel; the
dry run leaves the filesystem as it was and prints what its visits announce.  The live
run ends without error exactly when the dry run does and the writes and renames it
announces all succeed when they are carried out one after the other from the initial
tree.  A live run that ends without error reports the changes the dry run announces,
in the same order, and the filesystem it leaves is the one these writes and renames
give: the paths it has modified and renamed are the paths the dry run reports. -/
theorem C4_dry_run_fidelity (L : RegexpLib) {rules : List (Rule L)} (rt : Runtime L rules)
    (fuel : Nat) (fs : FS) (root : Text) (ignoreList : List L.Regexp)
    (hfuel : maxDepth fs + 2 ≤ fuel)
    (hsafe : undisturbed [] (Walk (logged (visit L rt ignoreList true)) fuel fs root).2.1 = true) :
    (renameFilesAndContent L rt fuel fs root ignoreList true).2.2 ≠ some Error.outOfFuel ∧
    (renameFilesAndContent L rt fuel fs root ignoreList false).2.2 ≠ some Error.outOfFuel ∧
    (renameFilesAndContent L rt fuel fs root ignoreList true).1 = fs ∧
    announced (Walk (logged (visit L rt ignoreList true)) fuel fs root).2.1 =
      (renameFilesAndContent L rt fuel fs root ignoreList true).2.1 ∧
    ((renameFilesAndContent L rt fuel fs root ignoreList false).2.2 = none ↔
      (renameFilesAndContent L rt fuel fs root ignoreList true).2.2 = none ∧
      ∃ done, carryOut L rt fs fs
        (renameFilesAndContent L rt fuel fs root ignoreList true).2.1 = Except.ok done) ∧
    ((renameFilesAndContent L rt fuel fs root ignoreList false).2.2 = none →
      (renameFilesAndContent L rt fuel fs root ignoreList false).2.1.map Report.change =
        (renameFilesAndContent L rt fuel fs root ignoreList true).2.1.map Report.change ∧
      carryOut L rt fs fs (renameFilesAndContent L rt fuel fs root ignoreList true).2.1 =
        Except.ok (renameFilesAndContent L rt fuel fs root ignoreList false).1) := by
  refine ⟨renameFilesAndContent_enough L rt fuel fs root ignoreList true hfuel,
    renameFilesAndContent_enough L rt fuel fs root ignoreList false hfuel, ?_⟩
  unfold renameFilesAndContent
  rw [Walk_eq] at hsafe
  rw [Walk_eq (visit L rt ignoreList true), Walk_eq (visit L rt ignoreList false),
    Walk_eq (logged (visit L rt ignoreList true))]
  dsimp only at hsafe ⊢
  cases hl : lstat fs root with
  | error e =>
    have hlive : ∀ dryRun, (visit L rt ignoreList dryRun fs root none (some e)).2.2.toError ≠
        none := fun dryRun h => by cases h
    exact ⟨(visit_dry L rt ignoreList fs root none (some e)).1, rfl,
      Iff.intro (fun h => absurd h (hlive false)) (fun h => absurd h.1 (hlive true)),
      fun h => absurd h (hlive false)⟩
  | ok info =>
    rw [hl] at hsafe
    dsimp only at hsafe ⊢
    obtain ⟨ha, hb, hc⟩ := walk_logged (visit L rt ignoreList true) fuel fs root info
    have hsim := walk_sim L rt ignoreList fuel [] fs fs root info (agree_refl fs) hsafe
    unfold Simulates at hsim
    rw [hb, hc] at hsim
    refine ⟨?_, hb, Iff.intro ?_ ?_, ?_⟩
    · rw [← ha]
      exact dry_walk_fs L rt ignoreList fuel fs root info
    · intro hlive
      rcases hsim with ⟨e, he, _⟩ | ⟨hs, _, _, hfs⟩
      · rw [he] at hlive
        cases hlive
      · rw [← hs]
        exact ⟨hlive, _, hfs⟩
    · intro hdry
      rcases hsim with ⟨e, _, hwhy⟩ | ⟨hs, _, _, _⟩
      · rcases hwhy with ⟨e', he'⟩ | ⟨e', hfail⟩
        · rw [he'] at hdry
          cases hdry.1
        · obtain ⟨done, hdone⟩ := hdry.2
          rw [hfail] at hdone
          cases hdone
      · rw [hs]
        exact hdry.1
    · intro hlive
      rcases hsim with ⟨e, he, _⟩ | ⟨_, hch, _, hfs⟩
      · rw [he] at hlive
        cases hlive
      · exact ⟨hch, hfs⟩

/-- Witness of C4, scenario A: the dry run announces a change of content in `foo.txt` and
its rename to `bar.txt`, the write and the rename succeed; the live run ends without
error, does both and leaves `bar.txt` holding `bar123`. -/
theorem C4_dry_run_fidelity_witness :
    (renameFilesAndContent literalLib (Runtime.insertion literalLib fooBar) 5 sceneA
        ".".toList [] true).2.1 =
      [Report.substitutions true "foo.txt".toList,
       Report.renamed true "foo.txt".toList "bar.txt".toList] ∧
    (renameFilesAndContent literalLib (Runtime.insertion literalLib fooBar) 5 sceneA
        ".".toList [] false).2.2 = none ∧
    (renameFilesAndContent literalLib (Runtime.insertion literalLib fooBar) 5 sceneA
        ".".toList [] false).2.1.map Report.change =
      [(false, "foo.txt".toList, "foo.txt".toList), (true, "foo.txt".toList, "bar.txt".toList)] ∧
    (renameFilesAndContent literalLib (Runtime.insertion literalLib fooBar) 5 sceneA
        ".".toList [] false).1 = sceneAdone :=
  ⟨rfl,
   (C4_dry_run_fidelity literalLib (Runtime.insertion literalLib fooBar) 5 sceneA
      ".".toList [] (by decide) rfl).2.2.2.2.1.2 ⟨rfl, sceneAdone, rfl⟩,
   ((C4_dry_run_fidelity literalLib (Runtime.insertion literalLib fooBar) 5 sceneA
      ".".toList [] (by decide) rfl).2.2.2.2.2 rfl).1.trans rfl,
   Except.ok.inj (((C4_dry_run_fidelity literalLib (Runtime.insertion literalLib fooBar) 5
      sceneA ".".toList [] (by decide) rfl).2.2.2.2.2 rfl).2.symm.trans rfl)⟩
end GoRxRename
